import Mathlib

/-!
# Verification of the BVH acceleration-structure core of RealtimeRaytracing

A shallow embedding, in Lean 4, of the CPU-side acceleration-structure
subsystem of the repository (files `src/rt_bvh.h` and `src/rt_structs.h`):
the axis-aligned bounding-box utility, the SAH binned BVH builder
(`BVHBuilder::build`, `buildRecursive`, `findBestSplit`, `createLeaf`),
the bounds refit pass (`refit`, `refitNode`) and the geometry transform
stage (`ApplyTransform`).

Modelling conventions:

* `float` scalars are embedded as exact rationals (`ℚ`).  The source's
  `FLT_MAX` sentinel is the literal constant `fltMax` below.  The single
  place where IEEE special values matter behaviourally — a candidate SAH
  cost computed with a zero parent surface area is `inf`/`NaN` in the
  source and therefore never improves the running best — is modelled by
  an explicit non-zero guard on the divisor at the comparison.
* `std::vector` is embedded as `List`; in-place mutation of a caller's
  vector becomes explicit state passing.
* `std::partition` is embedded as a stable partition of the subrange
  (a conforming implementation of the C++ contract, which leaves the
  order inside each class unspecified), and `std::nth_element` as a
  full sort of the subrange by the same comparator (again a conforming
  implementation: it satisfies every postcondition `nth_element`
  guarantees for any `nth`).
* `glm::normalize` contains a square root, which has no exact rational
  form; the normal-transform map of `ApplyTransform` is therefore a
  parameter of the embedding.  It touches only the normal fields, which
  no claim below depends on.
-/

/-- 3-component vector of exact scalars (the `xyz` part of `glm::vec3` /
`glm::vec4`). -/
structure Vec3 where
  x : ℚ
  y : ℚ
  z : ℚ
deriving DecidableEq, Repr

/-- 4-component vector (`glm::vec4`). -/
structure Vec4 where
  x : ℚ
  y : ℚ
  z : ℚ
  w : ℚ
deriving DecidableEq, Repr

/-- The `xyz` swizzle of a `vec4`. -/
def Vec4.xyz (v : Vec4) : Vec3 := ⟨v.x, v.y, v.z⟩

/-- Component access `v[dim]` for `dim = 0,1,2`, as used by
`centroid[dim]` in `findBestSplit`. -/
def Vec3.get (v : Vec3) (dim : Nat) : ℚ :=
  if dim = 0 then v.x else if dim = 1 then v.y else v.z

/-- Componentwise minimum (`glm::min`). -/
def vmin (a b : Vec3) : Vec3 := ⟨min a.x b.x, min a.y b.y, min a.z b.z⟩

/-- Componentwise maximum (`glm::max`). -/
def vmax (a b : Vec3) : Vec3 := ⟨max a.x b.x, max a.y b.y, max a.z b.z⟩

/-- Componentwise order on `Vec3` (used to state box containment). -/
def vle (a b : Vec3) : Prop := a.x ≤ b.x ∧ a.y ≤ b.y ∧ a.z ≤ b.z

instance (a b : Vec3) : Decidable (vle a b) := by unfold vle; infer_instance

/-- The `FLT_MAX` sentinel used by the source to initialise empty boxes
and centroid ranges: the largest finite IEEE-754 single. -/
def fltMax : ℚ := 2 ^ 128 - 2 ^ 104

/-- Axis-aligned bounding box (`struct AABB` in `rt_bvh.h`). -/
structure AABB where
  min : Vec3
  max : Vec3
deriving DecidableEq, Repr

/-- `AABB()` : the empty box, `min = FLT_MAX`, `max = -FLT_MAX` per axis. -/
def AABB.empty : AABB :=
  ⟨⟨fltMax, fltMax, fltMax⟩, ⟨-fltMax, -fltMax, -fltMax⟩⟩

/-- `AABB::expand(const glm::vec3&)`. -/
def AABB.expandP (b : AABB) (p : Vec3) : AABB :=
  ⟨vmin b.min p, vmax b.max p⟩

/-- `AABB::expand(const AABB&)`. -/
def AABB.expandB (b o : AABB) : AABB :=
  ⟨vmin b.min o.min, vmax b.max o.max⟩

/-- `AABB::surfaceArea()` : `2*(dx*dy + dy*dz + dx*dz)` for `d = max-min`. -/
def AABB.surfaceArea (b : AABB) : ℚ :=
  let dx := b.max.x - b.min.x
  let dy := b.max.y - b.min.y
  let dz := b.max.z - b.min.z
  2 * (dx * dy + dy * dz + dx * dz)

/-- `AABB::center()` : `(min + max) * 0.5f`. -/
def AABB.center (b : AABB) : Vec3 :=
  ⟨(b.min.x + b.max.x) / 2, (b.min.y + b.max.y) / 2, (b.min.z + b.max.z) / 2⟩

/-- `struct Triangle` from `rt_structs.h`: three vertex positions, three
vertex normals (all `vec4`, `w` unused), a material id and the cached
centroid components `cx, cy, cz`. -/
structure Triangle where
  v0 : Vec4
  v1 : Vec4
  v2 : Vec4
  n0 : Vec4
  n1 : Vec4
  n2 : Vec4
  materialID : Int
  cx : ℚ
  cy : ℚ
  cz : ℚ
deriving DecidableEq, Repr

/-- `struct BVHNode` from `rt_structs.h`. -/
structure BVHNode where
  min : Vec4
  max : Vec4
  leftChild : Int
  rightChild : Int
  pad0 : Int
  pad1 : Int
deriving DecidableEq, Repr

/-- The zero node a freshly value-initialised `BVHNode` holds; used for the
`nodes.emplace_back()` placeholder in `buildRecursive`. -/
def BVHNode.placeholder : BVHNode :=
  ⟨⟨0, 0, 0, 0⟩, ⟨0, 0, 0, 0⟩, 0, 0, 0, 0⟩

/-- `vec4(v, 0.0f)` as written when a box corner is stored to a node. -/
def toV4 (v : Vec3) : Vec4 := ⟨v.x, v.y, v.z, 0⟩

/-- The box stored in a node (the `xyz` parts of its `min`/`max`). -/
def BVHNode.box (n : BVHNode) : AABB := ⟨n.min.xyz, n.max.xyz⟩

/-- `BVHBuilder::PrimInfo`: per-triangle descriptor built once per
`build` call. -/
structure PrimInfo where
  bounds : AABB
  centroid : Vec3
  primitiveIndex : Int
deriving DecidableEq, Repr

/-- `BVHBuilder::getTriangleBounds`: box of the three vertex positions,
accumulated from the empty box. -/
def getTriangleBounds (t : Triangle) : AABB :=
  ((AABB.empty.expandP t.v0.xyz).expandP t.v1.xyz).expandP t.v2.xyz

/-- The primitive-descriptor table built by the loop at the top of
`BVHBuilder::build`: for each triangle, its bounds, **the center of those
bounds** as the cached centroid (`bounds.center()` at `rt_bvh.h:64`), and
its original index. -/
def mkPrimInfo (triangles : List Triangle) : List PrimInfo :=
  triangles.enum.map fun p =>
    { bounds := getTriangleBounds p.2
      centroid := (getTriangleBounds p.2).center
      primitiveIndex := (p.1 : Int) }

/-- The triangle centroid as the specification defines it: the average of
the three vertex positions.  Stated from the spec's words, for comparison
with the descriptor the source actually builds. -/
def vertexAverage (t : Triangle) : Vec3 :=
  ⟨(t.v0.x + t.v1.x + t.v2.x) / 3,
   (t.v0.y + t.v1.y + t.v2.y) / 3,
   (t.v0.z + t.v1.z + t.v2.z) / 3⟩

/-- The subrange `[s, e)` of a list (the iterator range
`begin()+s .. begin()+e` the builder works on). -/
def subrange (xs : List α) (s e : Nat) : List α := (xs.drop s).take (e - s)

/-- Model of `std::partition(begin+s, begin+e, pred)`: a stable partition
of the subrange (a conforming implementation of the C++ contract, which
leaves the order inside each class unspecified).  Returns the new list and
`splitIter - begin`, i.e. `s` plus the number of elements satisfying the
predicate. -/
def partitionRange (pred : PrimInfo → Bool) (xs : List PrimInfo) (s e : Nat) :
    List PrimInfo × Nat :=
  let mid := subrange xs s e
  let yes := mid.filter pred
  let no := mid.filter fun p => !(pred p)
  (xs.take s ++ (yes ++ no) ++ xs.drop e, s + yes.length)

/-- One SAH bucket (`struct Bucket` local to `findBestSplit`): primitive
count and box union. -/
structure Bucket where
  count : Nat
  bounds : AABB
deriving DecidableEq, Repr

/-- A freshly initialised bucket. -/
def Bucket.init : Bucket := ⟨0, AABB.empty⟩

/-- `min(numBuckets-1, (int)(numBuckets * (c - minC) / (maxC - minC)))`.
The C cast truncates toward zero, which is the floor here because the
argument is non-negative (`c ≥ minC`, `maxC > minC`). -/
def bucketIndexOf (d : Nat) (minC maxC : ℚ) (p : PrimInfo) : Nat :=
  min 11 (Int.toNat ⌊12 * (p.centroid.get d - minC) / (maxC - minC)⌋)

/-- The 12-bucket histogram of a subrange along dimension `d`: each
primitive bumps its bucket's count and enlarges its bucket's box. -/
def mkBuckets (d : Nat) (minC maxC : ℚ) (xs : List PrimInfo) : List Bucket :=
  xs.foldl
    (fun bs p =>
      let bi := bucketIndexOf d minC maxC p
      let old := bs.getD bi Bucket.init
      bs.set bi ⟨old.count + 1, old.bounds.expandB p.bounds⟩)
    (List.replicate 12 Bucket.init)

/-- Accumulate a run of buckets into a count and a box union (the
left-side / right-side loops of the cost evaluation). -/
def bucketTotal (bs : List Bucket) : Nat × AABB :=
  bs.foldl (fun a b => (a.1 + b.count, a.2.expandB b.bounds)) (0, AABB.empty)

/-- `minCentroid`: fold of `std::min` from the `FLT_MAX` sentinel. -/
def minCentroidOf (d : Nat) (xs : List PrimInfo) : ℚ :=
  xs.foldl (fun m p => min m (p.centroid.get d)) fltMax

/-- `maxCentroid`: fold of `std::max` from the `-FLT_MAX` sentinel. -/
def maxCentroidOf (d : Nat) (xs : List PrimInfo) : ℚ :=
  xs.foldl (fun m p => max m (p.centroid.get d)) (-fltMax)

/-- The running state of `findBestSplit`: best cost so far (`none` models
the `FLT_MAX` sentinel), the output parameters `bestDim`/`bestPos`, and
the working primitive array (mutated by the eager partitions).
`bestThr` records the winning candidate's `splitCentroid`; the source
does not return it, it is carried here purely so the specification can
speak about "the chosen bucket-boundary threshold". -/
structure SplitAcc where
  bestCost : Option ℚ
  bestDim : Nat
  bestPos : Nat
  bestThr : ℚ
  prims : List PrimInfo

/-- The improvement test `cost < bestCost`.  In the source this is a
`float` comparison against an initial `FLT_MAX`; a cost computed with a
zero parent surface area is `inf`/`NaN` there and never satisfies it,
which the `saParent ≠ 0` conjunct makes explicit. -/
def costBeats (saParent cost : ℚ) (best : Option ℚ) : Bool :=
  decide (saParent ≠ 0) &&
    match best with
    | none => true
    | some b => decide (cost < b)

/-- The body of the `splitBucket` loop: evaluate the SAH cost of cutting
between buckets `sb-1` and `sb`; skip if a side is empty; on improvement,
partition the working range at `splitCentroid` and record the clamped
split position. -/
def tryBucket (s e : Nat) (bounds : AABB) (d : Nat) (minC maxC : ℚ)
    (bks : List Bucket) (acc : SplitAcc) (sb : Nat) : SplitAcc :=
  let lt := bucketTotal (bks.take sb)
  let rt := bucketTotal (bks.drop sb)
  if lt.1 = 0 ∨ rt.1 = 0 then acc
  else
    let cost : ℚ := 1 / 8 + 1 *
      ((lt.1 : ℚ) * lt.2.surfaceArea + (rt.1 : ℚ) * rt.2.surfaceArea) /
        bounds.surfaceArea
    if costBeats bounds.surfaceArea cost acc.bestCost then
      let t := minC + (maxC - minC) * (sb : ℚ) / 12
      let pr := partitionRange (fun p => decide (p.centroid.get d < t)) acc.prims s e
      { bestCost := some cost, bestDim := d,
        bestPos := max (s + 1) (min (e - 1) pr.2),
        bestThr := t, prims := pr.1 }
    else acc

/-- The body of the dimension loop: centroid extent, zero-span skip,
bucket histogram, then the 11 interior boundaries. -/
def splitDim (s e : Nat) (bounds : AABB) (acc : SplitAcc) (d : Nat) : SplitAcc :=
  let sl := subrange acc.prims s e
  let minC := minCentroidOf d sl
  let maxC := maxCentroidOf d sl
  if minC = maxC then acc
  else
    let bks := mkBuckets d minC maxC sl
    (List.range' 1 11).foldl (tryBucket s e bounds d minC maxC bks) acc

/-- `BVHBuilder::findBestSplit`: try the three dimensions in order,
starting from the sentinel cost and the default `bestPos = (s+e)/2`. -/
def findBestSplit (prims : List PrimInfo) (s e : Nat) (bounds : AABB) : SplitAcc :=
  [0, 1, 2].foldl (splitDim s e bounds)
    { bestCost := none, bestDim := 0, bestPos := (s + e) / 2, bestThr := 0,
      prims := prims }

/-- A fold preserves any invariant its step preserves. -/
theorem foldlPreserve {σ α : Type _} {P : σ → Prop} (f : σ → α → σ)
    (h : ∀ st a, P st → P (f st a)) :
    ∀ (l : List α) (st : σ), P st → P (l.foldl f st)
  | [], _, hst => hst
  | a :: l, st, hst => foldlPreserve f h l (f st a) (h st a hst)

/-- The split position `findBestSplit` reports is strictly inside the
range: the default `(s+e)/2` is, and every candidate is clamped to
`[s+1, e-1]`. -/
theorem findBestSplit_pos_bounds (prims : List PrimInfo) (s e : Nat) (b : AABB)
    (h : s + 2 ≤ e) :
    s < (findBestSplit prims s e b).bestPos ∧
      (findBestSplit prims s e b).bestPos < e := by
  unfold findBestSplit
  apply foldlPreserve (P := fun acc : SplitAcc => s < acc.bestPos ∧ acc.bestPos < e)
  · intro acc d hacc
    unfold splitDim
    dsimp only
    split
    · exact hacc
    · apply foldlPreserve (P := fun acc : SplitAcc => s < acc.bestPos ∧ acc.bestPos < e)
      · intro acc' sb hacc'
        unfold tryBucket
        dsimp only
        split
        · exact hacc'
        · split
          · dsimp only
            omega
          · exact hacc'
      · exact hacc
  · dsimp only
    omega

/-- `class BVHBuilder`'s data members: the flat node array and the
primitive-index array. -/
structure BVHBuilder where
  nodes : List BVHNode
  primitiveIndices : List Int
deriving DecidableEq, Repr

/-- The caller's test `splitCost >= numPrims`, with `none` standing for
the `FLT_MAX` sentinel (which compares `≥` any primitive count). -/
def costGE (c : Option ℚ) (n : Nat) : Bool :=
  match c with
  | none => true
  | some c => decide ((n : ℚ) ≤ c)

/-- Union box of the primitive bounds over the subrange `[s, e)` (the
bounds-accumulation loop at the top of `buildRecursive`). -/
def rangeBounds (prims : List PrimInfo) (s e : Nat) : AABB :=
  (subrange prims s e).foldl (fun b p => b.expandB p.bounds) AABB.empty

/-- `BVHBuilder::createLeaf`: store the box, encode the leaf as
`leftChild = -(primitiveOffset + 1)`, `rightChild = count`, and append
the range's primitive indices.  The pads keep the placeholder's zeros
(the source never writes them in a leaf). -/
def createLeaf (st : BVHBuilder) (nodeIndex : Nat) (bounds : AABB)
    (prims : List PrimInfo) (s e : Nat) : BVHBuilder :=
  let node : BVHNode :=
    { min := toV4 bounds.min, max := toV4 bounds.max,
      leftChild := -((st.primitiveIndices.length : Int) + 1),
      rightChild := ((e - s : Nat) : Int),
      pad0 := 0, pad1 := 0 }
  { nodes := st.nodes.set nodeIndex node,
    primitiveIndices :=
      st.primitiveIndices ++ (subrange prims s e).map (·.primitiveIndex) }

/-- Comparator order used when partitioning around the winning split:
`a.centroid[splitDim] < b.centroid[splitDim]` induces this non-strict
total preorder on descriptors. -/
def dimLE (d : Nat) (a b : PrimInfo) : Prop :=
  a.centroid.get d ≤ b.centroid.get d

instance (d : Nat) : DecidableRel (dimLE d) := fun a b => by
  unfold dimLE; infer_instance

instance (d : Nat) : IsTotal PrimInfo (dimLE d) :=
  ⟨fun a b => le_total (a.centroid.get d) (b.centroid.get d)⟩

instance (d : Nat) : IsTrans PrimInfo (dimLE d) :=
  ⟨fun _ _ _ hab hbc => le_trans hab hbc⟩

/-- Model of `std::nth_element(begin+s, begin+splitPos, begin+e, cmp)`:
fully sort the subrange with the comparator's order.  A full sort is a
conforming implementation: it satisfies every postcondition
`nth_element` guarantees, for any `nth`. -/
def sortRange (xs : List PrimInfo) (s e d : Nat) : List PrimInfo :=
  xs.take s ++ (subrange xs s e).insertionSort (dimLE d) ++ xs.drop e

/-- `BVHBuilder::buildRecursive`: append a placeholder node, box the
range, emit a leaf for small ranges or non-beneficial splits, otherwise
partition around the winning split and recurse on the two halves. -/
def buildRecursive (st : BVHBuilder) (prims : List PrimInfo) (s e : Nat) :
    BVHBuilder × List PrimInfo × Nat :=
  let nodeIndex := st.nodes.length
  let st1 : BVHBuilder := { st with nodes := st.nodes ++ [BVHNode.placeholder] }
  let bounds := rangeBounds prims s e
  let numPrims := e - s
  if numPrims ≤ 4 then
    (createLeaf st1 nodeIndex bounds prims s e, prims, nodeIndex)
  else
    let r := findBestSplit prims s e bounds
    if costGE r.bestCost numPrims then
      (createLeaf st1 nodeIndex bounds r.prims s e, r.prims, nodeIndex)
    else
      let prims2 := sortRange r.prims s e r.bestDim
      let u := buildRecursive st1 prims2 s r.bestPos
      let v := buildRecursive u.1 u.2.1 r.bestPos e
      let node : BVHNode :=
        { min := toV4 bounds.min, max := toV4 bounds.max,
          leftChild := (u.2.2 : Int), rightChild := (v.2.2 : Int),
          pad0 := 0, pad1 := 0 }
      ({ v.1 with nodes := v.1.nodes.set nodeIndex node }, v.2.1, nodeIndex)
termination_by (e - s)
decreasing_by
  · have hb := findBestSplit_pos_bounds prims s e (rangeBounds prims s e) (by omega)
    omega
  · have hb := findBestSplit_pos_bounds prims s e (rangeBounds prims s e) (by omega)
    omega

/-- `BVHBuilder::build`: clear both arrays, return at once on empty
input, otherwise build the descriptor table and recurse over the full
range. -/
def build (bld : BVHBuilder) (triangles : List Triangle) : BVHBuilder :=
  let bld0 : BVHBuilder := { bld with nodes := [], primitiveIndices := [] }
  if triangles.isEmpty then bld0
  else
    let primInfo := mkPrimInfo triangles
    (buildRecursive bld0 primInfo 0 primInfo.length).1

/-- An all-zero triangle, used as the out-of-bounds default of the
embedding's reads (an out-of-bounds read is undefined behaviour in the
source; no theorem below depends on it). -/
def Triangle.zero : Triangle :=
  ⟨⟨0, 0, 0, 0⟩, ⟨0, 0, 0, 0⟩, ⟨0, 0, 0, 0⟩,
   ⟨0, 0, 0, 0⟩, ⟨0, 0, 0, 0⟩, ⟨0, 0, 0, 0⟩, 0, 0, 0, 0⟩

/-- Write a box into a node in place (`node.min = glm::vec4(b.min, 0.0f);
node.max = glm::vec4(b.max, 0.0f);` through the reference held by
`refitNode`): only the `min`/`max` fields change, the rest of the entry
keeps its current values. -/
def updateNodeBox (nodes : List BVHNode) (idx : Nat) (b : AABB) : List BVHNode :=
  let old := nodes.getD idx BVHNode.placeholder
  nodes.set idx { old with min := toV4 b.min, max := toV4 b.max }

/-- `BVHBuilder::refitNode`.  The source recurses on the child indices
with no bound; `fuel` caps the recursion depth in the embedding, and
`refit` passes `nodes.length`, which is never exhausted on a hierarchy
whose child indices strictly increase (as `build` produces).  A leaf
recomputes its box from the current triangles of its primitive run (the
source inlines `getTriangleBounds` there); an internal node refits both
children first and stores the union of their freshly computed boxes. -/
def refitNode (fuel : Nat) (nodes : List BVHNode) (prims : List Int)
    (tris : List Triangle) (idx : Nat) : List BVHNode × AABB :=
  match fuel with
  | 0 => (nodes, AABB.empty)
  | fuel + 1 =>
    let node := nodes.getD idx BVHNode.placeholder
    if node.leftChild < 0 then
      let primOffset := (-node.leftChild - 1).toNat
      let primCount := node.rightChild.toNat
      let bounds := (List.range primCount).foldl
        (fun b i =>
          let triIdx := (prims.getD (primOffset + i) 0).toNat
          b.expandB (getTriangleBounds (tris.getD triIdx Triangle.zero)))
        AABB.empty
      (updateNodeBox nodes idx bounds, bounds)
    else
      let l := node.leftChild.toNat
      let r := node.rightChild.toNat
      let resL := refitNode fuel nodes prims tris l
      let resR := refitNode fuel resL.1 prims tris r
      let b := resL.2.expandB resR.2
      (updateNodeBox resR.1 idx b, b)

/-- `BVHBuilder::refit`: nothing to do on an empty hierarchy, otherwise
refit from the root. -/
def refit (bld : BVHBuilder) (tris : List Triangle) : BVHBuilder :=
  if bld.nodes.isEmpty then bld
  else
    { bld with
      nodes := (refitNode bld.nodes.length bld.nodes bld.primitiveIndices tris 0).1 }

/-- A 4×4 model matrix, written by rows: `arc` is row `r`, column `c`
(glm stores the same matrix column-major, `M[c][r]`). -/
structure Mat4 where
  a00 : ℚ
  a01 : ℚ
  a02 : ℚ
  a03 : ℚ
  a10 : ℚ
  a11 : ℚ
  a12 : ℚ
  a13 : ℚ
  a20 : ℚ
  a21 : ℚ
  a22 : ℚ
  a23 : ℚ
  a30 : ℚ
  a31 : ℚ
  a32 : ℚ
  a33 : ℚ
deriving DecidableEq, Repr

/-- The position map `xformP` of `ApplyTransform`:
`r = M * vec4(p, 1.0f)`, returned as `vec4(r.xyz, 0.0f)`. -/
def xformP (M : Mat4) (p : Vec3) : Vec4 :=
  ⟨M.a00 * p.x + M.a01 * p.y + M.a02 * p.z + M.a03,
   M.a10 * p.x + M.a11 * p.y + M.a12 * p.z + M.a13,
   M.a20 * p.x + M.a21 * p.y + M.a22 * p.z + M.a23, 0⟩

/-- `ApplyTransform` from `rt_structs.h`: copy each source triangle,
transform its three vertex positions by `M` and its three normals by the
normal map, and write the result.  The normal map
(`normalize(transpose(inverse(mat3(M))) * n)` in the source) involves a
square root with no exact rational form, so it is a parameter here; it
writes only the normal fields.  All remaining fields — `materialID` and
the cached centroid `cx, cy, cz` — are those of the copied source
triangle. -/
def ApplyTransform (xformN : Vec3 → Vec4) (src : List Triangle) (M : Mat4) :
    List Triangle :=
  src.map fun t =>
    { t with
      v0 := xformP M t.v0.xyz, v1 := xformP M t.v1.xyz, v2 := xformP M t.v2.xyz,
      n0 := xformN t.n0.xyz, n1 := xformN t.n1.xyz, n2 := xformN t.n2.xyz }

/-- A zero primitive descriptor (out-of-bounds default for reads). -/
def PrimInfo.zero : PrimInfo := ⟨⟨⟨0, 0, 0⟩, ⟨0, 0, 0⟩⟩, ⟨0, 0, 0⟩, 0⟩

/-- Box containment of a point, componentwise. -/
def AABB.containsP (b : AABB) (p : Vec3) : Prop := vle b.min p ∧ vle p b.max

instance (b : AABB) (p : Vec3) : Decidable (b.containsP p) := by
  unfold AABB.containsP; infer_instance

/-- `Subtree nodes idx hi`: the subtree rooted at `idx` occupies exactly
the index range `[idx, hi)` of the flat node array, children directly
after their parent (left at `idx + 1`, right at the end of the left
subtree) — the layout `buildRecursive` produces by appending.  Reads only
the `leftChild`/`rightChild` fields inside the range. -/
inductive Subtree (nodes : List BVHNode) : Nat → Nat → Prop where
  | leaf : ∀ idx, idx < nodes.length →
      (nodes.getD idx BVHNode.placeholder).leftChild < 0 →
      Subtree nodes idx (idx + 1)
  | node : ∀ idx m hi, idx < nodes.length →
      (nodes.getD idx BVHNode.placeholder).leftChild = ((idx + 1 : Nat) : Int) →
      (nodes.getD idx BVHNode.placeholder).rightChild = ((m : Nat) : Int) →
      Subtree nodes (idx + 1) m → Subtree nodes m hi →
      Subtree nodes idx hi

/-- The box invariant of one node: if it is internal (non-negative left
child), its stored box is exactly the componentwise min/max union of its
two children's stored boxes. -/
def NodeOK (nodes : List BVHNode) (j : Nat) : Prop :=
  let nd := nodes.getD j BVHNode.placeholder
  0 ≤ nd.leftChild →
    nd.box = ((nodes.getD nd.leftChild.toNat BVHNode.placeholder).box).expandB
      ((nodes.getD nd.rightChild.toNat BVHNode.placeholder).box)

instance (nodes : List BVHNode) (j : Nat) : Decidable (NodeOK nodes j) := by
  unfold NodeOK; infer_instance

/-- A builder with no prior state. -/
def builder0 : BVHBuilder := ⟨[], []⟩

/-- Concrete triangle for tests/witnesses: vertices `(10i,0,0)`,
`(10i+1,0,0)`, `(10i,1,0)`, zero normals and centroid cache. -/
def wTri (i : Nat) : Triangle :=
  ⟨⟨10 * i, 0, 0, 0⟩, ⟨10 * i + 1, 0, 0, 0⟩, ⟨10 * i, 1, 0, 0⟩,
   ⟨0, 0, 0, 0⟩, ⟨0, 0, 0, 0⟩, ⟨0, 0, 0, 0⟩, 0, 0, 0, 0⟩

/-- Five well-separated concrete triangles (forces one SAH split). -/
def wTris : List Triangle := [wTri 0, wTri 1, wTri 2, wTri 3, wTri 4]

/-- The triangle of the C1 counterexample: vertices `(0,0,0)`, `(1,0,0)`,
`(3,0,0)`; its box center `(3/2,1/2,0)` differs from its vertex average
`(4/3,1/3,0)`. -/
def cexTri : Triangle :=
  ⟨⟨0, 0, 0, 0⟩, ⟨1, 0, 0, 0⟩, ⟨3, 0, 0, 0⟩,
   ⟨0, 0, 0, 0⟩, ⟨0, 0, 0, 0⟩, ⟨0, 0, 0, 0⟩, 0, 0, 0, 0⟩

/-- A pure translation by `(1,0,0)` (rows of the 4×4 matrix). -/
def trM : Mat4 := ⟨1, 0, 0, 1, 0, 1, 0, 0, 0, 0, 1, 0, 0, 0, 0, 1⟩

/-- Concrete primitive descriptor for the split-search witness: unit box
at `x = i`, centroid `(i,0,0)`, index `i`. -/
def w3prim (i : Nat) : PrimInfo :=
  ⟨⟨⟨i, 0, 0⟩, ⟨i + 1, 1, 1⟩⟩, ⟨i, 0, 0⟩, i⟩

/-- Five descriptors spread along the x axis. -/
def w3prims : List PrimInfo := [w3prim 0, w3prim 1, w3prim 2, w3prim 3, w3prim 4]

/-- Their enclosing box. -/
def w3bounds : AABB := ⟨⟨0, 0, 0⟩, ⟨5, 1, 1⟩⟩

/-- Float-representability of a descriptor's centroid: every coordinate
lies in `[-FLT_MAX, FLT_MAX]` (automatic in the source, where the values
are finite `float`s). -/
def CentroidBndP (p : PrimInfo) : Prop :=
  (-fltMax ≤ p.centroid.x ∧ p.centroid.x ≤ fltMax) ∧
    (-fltMax ≤ p.centroid.y ∧ p.centroid.y ≤ fltMax) ∧
    (-fltMax ≤ p.centroid.z ∧ p.centroid.z ≤ fltMax)

instance (p : PrimInfo) : Decidable (CentroidBndP p) := by
  unfold CentroidBndP; infer_instance

/-- Number of descriptors in a list whose centroid along `d` lies
strictly below `t` (the left class of a boundary partition). -/
def belowCount (d : Nat) (t : ℚ) (l : List PrimInfo) : Nat :=
  l.countP fun p => decide (p.centroid.get d < t)

/-- Invariant of the `findBestSplit` fold, relative to the primitives
`prims0` it started from: the working array is only ever re-partitioned
inside `[s, e)`, and whenever a best candidate is on record, its split
position is the clamped count of descriptors below its threshold along
its dimension, with the threshold strictly separating a nonempty below
class from a nonempty not-below class. -/
def SplitInv (prims0 : List PrimInfo) (s e : Nat) (acc : SplitAcc) : Prop :=
  acc.prims.take s = prims0.take s ∧
  acc.prims.drop e = prims0.drop e ∧
  acc.prims.length = prims0.length ∧
  List.Perm (subrange acc.prims s e) (subrange prims0 s e) ∧
  (∀ c, acc.bestCost = some c →
    acc.bestPos =
      max (s + 1) (min (e - 1)
        (s + belowCount acc.bestDim acc.bestThr (subrange acc.prims s e))) ∧
    (∃ p ∈ subrange acc.prims s e, p.centroid.get acc.bestDim < acc.bestThr) ∧
    (∃ p ∈ subrange acc.prims s e, acc.bestThr ≤ p.centroid.get acc.bestDim))

/-! ### Helper lemmas: lists -/

theorem getD_set_self {l : List BVHNode} {a d : BVHNode} {n : Nat}
    (h : n < l.length) : (l.set n a).getD n d = a := by
  rw [List.getD_eq_getElem _ _ (by simpa)]
  exact List.getElem_set_self (by simpa)

theorem getD_set_ne {l : List BVHNode} {a d : BVHNode} {m n : Nat}
    (h : m ≠ n) : (l.set m a).getD n d = l.getD n d := by
  simp [List.getD_eq_getElem?_getD, List.getElem?_set_ne h]

theorem take_set_of_le {α : Type _} (l : List α) (a : α) {m n : Nat}
    (h : m ≤ n) : (l.set n a).take m = l.take m := by
  apply List.ext_getElem
  · simp
  · intro i h1 h2
    have hi : i < n := by simp at h1; omega
    simp [List.getElem_take, List.getElem_set_ne (by omega : n ≠ i)]

theorem drop_set_of_lt {α : Type _} (l : List α) (a : α) {m n : Nat}
    (h : n < m) : (l.set n a).drop m = l.drop m := by
  apply List.ext_getElem
  · simp
  · intro i h1 h2
    simp [List.getElem_drop, List.getElem_set_ne (by omega : n ≠ m + i)]

/-- Prefix agreement transfers `getD`. -/
theorem prefix_getD {α : Type _} {l p : List α} {m : Nat} (hp : l.take m = p)
    {n : Nat} (hn : n < m) (d : α) : l.getD n d = p.getD n d := by
  subst hp
  by_cases hl : n < l.length
  · rw [List.getD_eq_getElem _ _ hl, List.getD_eq_getElem _ _ (by simp; omega)]
    simp [List.getElem_take]
  · rw [List.getD_eq_default _ _ (by omega), List.getD_eq_default _ _ (by simp; omega)]

/-- A stable partition of a list is a permutation of it. -/
theorem filterAppendPerm {α : Type _} (q : α → Bool) (l : List α) :
    List.Perm (l.filter q ++ l.filter fun x => !(q x)) l := by
  induction l with
  | nil => simp
  | cons a l ih =>
    by_cases h : q a
    · simpa [List.filter_cons, h] using ih.cons a
    · simp only [List.filter_cons, h, Bool.not_false, if_neg, Bool.false_eq_true,
        not_false_iff, if_pos]
      exact List.perm_middle.trans (ih.cons a)

/-- Folds of pairwise-commuting steps agree on permutations. -/
theorem permFoldl {α β : Type _} {f : β → α → β}
    (hc : ∀ b a1 a2, f (f b a1) a2 = f (f b a2) a1) :
    ∀ {l1 l2 : List α}, List.Perm l1 l2 → ∀ b, l1.foldl f b = l2.foldl f b := by
  intro l1 l2 p
  induction p with
  | nil => intro b; rfl
  | cons a _ ih => intro b; simpa using ih (f b a)
  | swap a b _ => intro c; simp [hc]
  | trans _ _ ih1 ih2 => intro b; rw [ih1, ih2]

/-- `subrange` of a list assembled as `prefix ++ middle ++ suffix`. -/
theorem subrange_decomp {α : Type _} {A M B : List α} {s e : Nat}
    (hA : A.length = s) (hM : M.length = e - s) (hse : s ≤ e) :
    (A ++ M ++ B).take s = A ∧ subrange (A ++ M ++ B) s e = M ∧
      (A ++ M ++ B).drop e = B ∧ (A ++ M ++ B).length = s + (e - s) + B.length := by
  have hA0 : A.drop s = [] := by rw [← hA]; exact List.drop_length A
  have hdrop : (A ++ M ++ B).drop s = M ++ B := by
    rw [List.append_assoc, List.drop_append_of_le_length (by omega), hA0]
    simp
  refine ⟨?_, ?_, ?_, by simp [hA, hM]; omega⟩
  · rw [List.append_assoc, List.take_append_of_le_length (by omega), ← hA, List.take_length]
  · rw [subrange, hdrop, List.take_append_of_le_length (by omega), ← hM, List.take_length]
  · have : e = s + (e - s) := by omega
    rw [this, ← List.drop_drop, hdrop, List.drop_append_of_le_length (by omega),
      ← hM, List.drop_length]
    simp

/-! ### Helper lemmas: boxes and folds -/

theorem vle_refl (a : Vec3) : vle a a := ⟨le_refl _, le_refl _, le_refl _⟩

theorem vle_trans {a b c : Vec3} (h1 : vle a b) (h2 : vle b c) : vle a c :=
  ⟨le_trans h1.1 h2.1, le_trans h1.2.1 h2.2.1, le_trans h1.2.2 h2.2.2⟩

theorem vmin_le_left (a b : Vec3) : vle (vmin a b) a :=
  ⟨min_le_left .., min_le_left .., min_le_left ..⟩

theorem vmin_le_right (a b : Vec3) : vle (vmin a b) b :=
  ⟨min_le_right .., min_le_right .., min_le_right ..⟩

theorem left_le_vmax (a b : Vec3) : vle a (vmax a b) :=
  ⟨le_max_left .., le_max_left .., le_max_left ..⟩

theorem right_le_vmax (a b : Vec3) : vle b (vmax a b) :=
  ⟨le_max_right .., le_max_right .., le_max_right ..⟩

theorem vmin_comm (a b : Vec3) : vmin a b = vmin b a := by
  simp [vmin, min_comm]

theorem vmax_comm (a b : Vec3) : vmax a b = vmax b a := by
  simp [vmax, max_comm]

theorem vmin_assoc (a b c : Vec3) : vmin (vmin a b) c = vmin a (vmin b c) := by
  simp [vmin, min_assoc]

theorem vmax_assoc (a b c : Vec3) : vmax (vmax a b) c = vmax a (vmax b c) := by
  simp [vmax, max_assoc]

theorem expandB_comm (a b : AABB) : a.expandB b = b.expandB a := by
  simp [AABB.expandB, vmin_comm, vmax_comm]

theorem expandB_assoc (a b c : AABB) :
    (a.expandB b).expandB c = a.expandB (b.expandB c) := by
  simp [AABB.expandB, vmin_assoc, vmax_assoc]

/-- `expandB` absorbs a box that already spans wider on both corners. -/
theorem vmin_eq_left {a b : Vec3} (h : vle a b) : vmin a b = a := by
  obtain ⟨a1, a2, a3⟩ := a
  obtain ⟨b1, b2, b3⟩ := b
  obtain ⟨h1, h2, h3⟩ := h
  simp only [vmin, Vec3.mk.injEq]
  exact ⟨min_eq_left h1, min_eq_left h2, min_eq_left h3⟩

theorem vmax_eq_left {a b : Vec3} (h : vle b a) : vmax a b = a := by
  obtain ⟨a1, a2, a3⟩ := a
  obtain ⟨b1, b2, b3⟩ := b
  obtain ⟨h1, h2, h3⟩ := h
  simp only [vmax, Vec3.mk.injEq]
  exact ⟨max_eq_left h1, max_eq_left h2, max_eq_left h3⟩

theorem expandB_absorb {a b : AABB} (h1 : vle a.min b.min) (h2 : vle b.max a.max) :
    a.expandB b = a := by
  obtain ⟨amin, amax⟩ := a
  simp only [AABB.expandB, AABB.mk.injEq]
  exact ⟨vmin_eq_left h1, vmax_eq_left h2⟩

/-- Fold of bound unions over a list (the loop shape of `rangeBounds`,
bucket accumulation and leaf boxes). -/
def boundsOf (l : List PrimInfo) : AABB :=
  l.foldl (fun b p => b.expandB p.bounds) AABB.empty

theorem rangeBounds_eq_boundsOf (prims : List PrimInfo) (s e : Nat) :
    rangeBounds prims s e = boundsOf (subrange prims s e) := rfl

theorem foldl_expandB_push (a : AABB) :
    ∀ (l : List PrimInfo) (b : AABB),
      l.foldl (fun b p => b.expandB p.bounds) (a.expandB b) =
        a.expandB (l.foldl (fun b p => b.expandB p.bounds) b)
  | [], _ => rfl
  | p :: l, b => by
    simpa [expandB_assoc] using foldl_expandB_push a l (b.expandB p.bounds)

/-- The fold only moves corners outward from its start. -/
theorem foldl_expandB_le :
    ∀ (l : List PrimInfo) (b : AABB),
      vle (l.foldl (fun b p => b.expandB p.bounds) b).min b.min ∧
        vle b.max (l.foldl (fun b p => b.expandB p.bounds) b).max
  | [], _ => ⟨vle_refl _, vle_refl _⟩
  | p :: l, b => by
    have ih := foldl_expandB_le l (b.expandB p.bounds)
    exact ⟨vle_trans ih.1 (vmin_le_left ..), vle_trans (left_le_vmax ..) ih.2⟩

/-- Every member's box is inside the fold's result. -/
theorem foldl_expandB_mem :
    ∀ {l : List PrimInfo} {p : PrimInfo}, p ∈ l → ∀ b : AABB,
      vle (l.foldl (fun b q => b.expandB q.bounds) b).min p.bounds.min ∧
        vle p.bounds.max (l.foldl (fun b q => b.expandB q.bounds) b).max := by
  intro l
  induction l with
  | nil => intro p hp; cases hp
  | cons q l ih =>
    intro p hp b
    rcases List.mem_cons.mp hp with h | h
    · subst h
      have hb := foldl_expandB_le l (b.expandB p.bounds)
      exact ⟨vle_trans hb.1 (vmin_le_right ..), vle_trans (right_le_vmax ..) hb.2⟩
    · exact ih h (b.expandB q.bounds)

theorem boundsOf_append (A B : List PrimInfo) :
    boundsOf (A ++ B) = (boundsOf A).expandB (boundsOf B) := by
  have habs : boundsOf A = (boundsOf A).expandB AABB.empty := by
    have h := foldl_expandB_le A AABB.empty
    exact (expandB_absorb h.1 h.2).symm
  calc boundsOf (A ++ B)
      = B.foldl (fun b p => b.expandB p.bounds) (boundsOf A) := by
        simp [boundsOf, List.foldl_append]
    _ = B.foldl (fun b p => b.expandB p.bounds) ((boundsOf A).expandB AABB.empty) := by
        rw [← habs]
    _ = (boundsOf A).expandB (boundsOf B) := foldl_expandB_push ..

theorem boundsOf_perm {A B : List PrimInfo} (h : List.Perm A B) :
    boundsOf A = boundsOf B :=
  permFoldl
    (fun b p q => by
      simp [expandB_assoc, expandB_comm p.bounds q.bounds]) h AABB.empty

/-- Folded minimum of centroid coordinates: generic start. -/
theorem foldl_min_le_start (d : Nat) :
    ∀ (l : List PrimInfo) (m : ℚ),
      l.foldl (fun m p => min m (p.centroid.get d)) m ≤ m
  | [], _ => le_refl _
  | p :: l, m =>
    le_trans (foldl_min_le_start d l (min m (p.centroid.get d))) (min_le_left ..)

theorem foldl_min_le_mem (d : Nat) :
    ∀ {l : List PrimInfo} {p : PrimInfo}, p ∈ l → ∀ m : ℚ,
      l.foldl (fun m q => min m (q.centroid.get d)) m ≤ p.centroid.get d := by
  intro l
  induction l with
  | nil => intro p hp; cases hp
  | cons q l ih =>
    intro p hp m
    rcases List.mem_cons.mp hp with h | h
    · subst h
      exact le_trans (foldl_min_le_start d l _) (min_le_right ..)
    · exact ih h _

theorem foldl_min_cases (d : Nat) :
    ∀ (l : List PrimInfo) (m : ℚ),
      l.foldl (fun m p => min m (p.centroid.get d)) m = m ∨
        ∃ p ∈ l, l.foldl (fun m p => min m (p.centroid.get d)) m = p.centroid.get d := by
  intro l
  induction l with
  | nil => intro m; exact Or.inl rfl
  | cons q l ih =>
    intro m
    rcases ih (min m (q.centroid.get d)) with h | ⟨p, hp, h⟩
    · rcases min_cases m (q.centroid.get d) with ⟨he, _⟩ | ⟨he, _⟩
      · exact Or.inl (by simp only [List.foldl_cons]; rw [h, he])
      · exact Or.inr ⟨q, List.mem_cons_self .., by simp only [List.foldl_cons]; rw [h, he]⟩
    · exact Or.inr ⟨p, List.mem_cons_of_mem _ hp, h⟩

theorem foldl_max_start_le (d : Nat) :
    ∀ (l : List PrimInfo) (m : ℚ),
      m ≤ l.foldl (fun m p => max m (p.centroid.get d)) m
  | [], _ => le_refl _
  | p :: l, m =>
    le_trans (le_max_left ..) (foldl_max_start_le d l (max m (p.centroid.get d)))

theorem foldl_max_mem_le (d : Nat) :
    ∀ {l : List PrimInfo} {p : PrimInfo}, p ∈ l → ∀ m : ℚ,
      p.centroid.get d ≤ l.foldl (fun m q => max m (q.centroid.get d)) m := by
  intro l
  induction l with
  | nil => intro p hp; cases hp
  | cons q l ih =>
    intro p hp m
    rcases List.mem_cons.mp hp with h | h
    · subst h
      exact le_trans (le_max_right ..) (foldl_max_start_le d l _)
    · exact ih h _

theorem foldl_max_cases (d : Nat) :
    ∀ (l : List PrimInfo) (m : ℚ),
      l.foldl (fun m p => max m (p.centroid.get d)) m = m ∨
        ∃ p ∈ l, l.foldl (fun m p => max m (p.centroid.get d)) m = p.centroid.get d := by
  intro l
  induction l with
  | nil => intro m; exact Or.inl rfl
  | cons q l ih =>
    intro m
    rcases ih (max m (q.centroid.get d)) with h | ⟨p, hp, h⟩
    · rcases max_cases m (q.centroid.get d) with ⟨he, _⟩ | ⟨he, _⟩
      · exact Or.inl (by simp only [List.foldl_cons]; rw [h, he])
      · exact Or.inr ⟨q, List.mem_cons_self .., by simp only [List.foldl_cons]; rw [h, he]⟩
    · exact Or.inr ⟨p, List.mem_cons_of_mem _ hp, h⟩

theorem minCentroidOf_perm {d : Nat} {A B : List PrimInfo} (h : List.Perm A B) :
    minCentroidOf d A = minCentroidOf d B :=
  permFoldl (fun b p q => by simp [min_right_comm]) h fltMax

theorem maxCentroidOf_perm {d : Nat} {A B : List PrimInfo} (h : List.Perm A B) :
    maxCentroidOf d A = maxCentroidOf d B :=
  permFoldl
    (fun b p q => by
      rw [max_assoc, max_comm (p.centroid.get d), ← max_assoc]) h (-fltMax)

theorem centroidBnd_get {p : PrimInfo} (h : CentroidBndP p) (d : Nat) :
    -fltMax ≤ p.centroid.get d ∧ p.centroid.get d ≤ fltMax := by
  obtain ⟨hx, hy, hz⟩ := h
  unfold Vec3.get
  split
  · exact hx
  · split
    · exact hy
    · exact hz

theorem subrange_length {α : Type _} {xs : List α} {s e : Nat}
    (he : e ≤ xs.length) : (subrange xs s e).length = e - s := by
  simp [subrange]
  omega

/-- A fold over a list preserves an invariant whose step only needs
membership of the element. -/
theorem foldlPreserveMem {σ α : Type _} {P : σ → Prop} {l : List α}
    (f : σ → α → σ) (h : ∀ st a, a ∈ l → P st → P (f st a)) :
    ∀ (st : σ), P st → P (l.foldl f st) := by
  induction l with
  | nil => intro st hst; exact hst
  | cons a l ih =>
    intro st hst
    exact ih (fun st b hb hp => h st b (List.mem_cons_of_mem _ hb) hp) _
      (h st a (List.mem_cons_self ..) hst)

/-- Shape of `partitionRange`: prefix and suffix untouched, the subrange
replaced by the stable partition of the old subrange, and the reported
position is `s` plus the count of predicate-satisfying elements. -/
theorem partitionRange_spec (pred : PrimInfo → Bool) (xs : List PrimInfo)
    {s e : Nat} (hse : s ≤ e) (he : e ≤ xs.length) :
    (partitionRange pred xs s e).1.take s = xs.take s ∧
    (partitionRange pred xs s e).1.drop e = xs.drop e ∧
    (partitionRange pred xs s e).1.length = xs.length ∧
    subrange (partitionRange pred xs s e).1 s e =
      (subrange xs s e).filter pred ++ (subrange xs s e).filter (fun p => !(pred p)) ∧
    List.Perm (subrange (partitionRange pred xs s e).1 s e) (subrange xs s e) ∧
    (partitionRange pred xs s e).2 = s + (subrange xs s e).countP pred := by
  have hs' : s ≤ xs.length := le_trans hse he
  have hA : (xs.take s).length = s := by simp; omega
  have hperm := filterAppendPerm pred (subrange xs s e)
  have hM : ((subrange xs s e).filter pred ++
      (subrange xs s e).filter fun p => !(pred p)).length = e - s := by
    rw [hperm.length_eq, subrange_length he]
  obtain ⟨h1, h2, h3, h4⟩ := subrange_decomp hA hM hse (B := xs.drop e)
  refine ⟨h1, h3, ?_, h2, h2 ▸ hperm, ?_⟩
  · simp only [partitionRange] at *
    rw [h4]
    simp
    omega
  · simp only [partitionRange]
    rw [List.countP_eq_length_filter]

/-- Shape of `sortRange`: prefix and suffix untouched, the subrange
replaced by its sort. -/
theorem sortRange_spec (xs : List PrimInfo) {s e : Nat} (d : Nat)
    (hse : s ≤ e) (he : e ≤ xs.length) :
    (sortRange xs s e d).take s = xs.take s ∧
    (sortRange xs s e d).drop e = xs.drop e ∧
    (sortRange xs s e d).length = xs.length ∧
    subrange (sortRange xs s e d) s e = (subrange xs s e).insertionSort (dimLE d) ∧
    List.Perm (subrange (sortRange xs s e d) s e) (subrange xs s e) := by
  have hs' : s ≤ xs.length := le_trans hse he
  have hA : (xs.take s).length = s := by simp; omega
  have hperm := List.perm_insertionSort (dimLE d) (subrange xs s e)
  have hM : ((subrange xs s e).insertionSort (dimLE d)).length = e - s := by
    rw [hperm.length_eq, subrange_length he]
  obtain ⟨h1, h2, h3, h4⟩ := subrange_decomp hA hM hse (B := xs.drop e)
  refine ⟨h1, h3, ?_, h2, h2 ▸ hperm⟩
  simp only [sortRange] at *
  rw [h4]
  simp
  omega

/-- On a nonempty list of float-representable centroids, the sentinel-
seeded minimum fold is attained by a member. -/
theorem minAttained (d : Nat) {l : List PrimInfo} (hne : l ≠ [])
    (hbnd : ∀ p ∈ l, CentroidBndP p) :
    ∃ p ∈ l, p.centroid.get d = minCentroidOf d l := by
  obtain ⟨p0, hp0⟩ := List.exists_mem_of_ne_nil l hne
  rcases foldl_min_cases d l fltMax with h | ⟨p, hp, h⟩
  · refine ⟨p0, hp0, le_antisymm ?_ ?_⟩
    · rw [minCentroidOf, h]
      exact (centroidBnd_get (hbnd p0 hp0) d).2
    · exact foldl_min_le_mem d hp0 fltMax
  · exact ⟨p, hp, h.symm⟩

/-- Dual of `minAttained` for the maximum fold. -/
theorem maxAttained (d : Nat) {l : List PrimInfo} (hne : l ≠ [])
    (hbnd : ∀ p ∈ l, CentroidBndP p) :
    ∃ p ∈ l, p.centroid.get d = maxCentroidOf d l := by
  obtain ⟨p0, hp0⟩ := List.exists_mem_of_ne_nil l hne
  rcases foldl_max_cases d l (-fltMax) with h | ⟨p, hp, h⟩
  · refine ⟨p0, hp0, le_antisymm ?_ ?_⟩
    · exact foldl_max_mem_le d hp0 (-fltMax)
    · rw [maxCentroidOf, h]
      exact (centroidBnd_get (hbnd p0 hp0) d).1
  · exact ⟨p, hp, h.symm⟩

/-- An interior bucket boundary lies strictly between the centroid
extremes. -/
theorem thr_bounds {minC maxC : ℚ} (h : minC < maxC) {sb : Nat}
    (h1 : 1 ≤ sb) (h11 : sb ≤ 11) :
    minC < minC + (maxC - minC) * (sb : ℚ) / 12 ∧
      minC + (maxC - minC) * (sb : ℚ) / 12 < maxC := by
  have hd : (0 : ℚ) < maxC - minC := by linarith
  have hsb1 : (1 : ℚ) ≤ (sb : ℚ) := by exact_mod_cast h1
  have hsb11 : (sb : ℚ) ≤ 11 := by exact_mod_cast h11
  constructor
  · have : (0 : ℚ) < (maxC - minC) * (sb : ℚ) / 12 := by
      apply div_pos (mul_pos hd (by linarith)) (by norm_num)
    linarith
  · have : (maxC - minC) * (sb : ℚ) / 12 < maxC - minC := by
      rw [div_lt_iff (by norm_num : (0:ℚ) < 12)]
      calc (maxC - minC) * (sb : ℚ) ≤ (maxC - minC) * 11 := by nlinarith
        _ < (maxC - minC) * 12 := by nlinarith
    linarith

/-- One `splitBucket` iteration preserves the `findBestSplit`
invariant. -/
theorem tryBucket_inv {prims0 : List PrimInfo} {s e : Nat} (bounds : AABB)
    (d : Nat) {minC maxC : ℚ} (bks : List Bucket) {sb : Nat}
    (hs : s < e) (he : e ≤ prims0.length)
    (hbnd : ∀ p ∈ subrange prims0 s e, CentroidBndP p)
    (hminC : minC = minCentroidOf d (subrange prims0 s e))
    (hmaxC : maxC = maxCentroidOf d (subrange prims0 s e))
    (hne : minC ≠ maxC) (hsb1 : 1 ≤ sb) (hsb11 : sb ≤ 11)
    {acc : SplitAcc} (hinv : SplitInv prims0 s e acc) :
    SplitInv prims0 s e (tryBucket s e bounds d minC maxC bks acc sb) := by
  obtain ⟨htake, hdrop, hlen, hperm, hbest⟩ := hinv
  unfold tryBucket
  dsimp only
  split
  · exact ⟨htake, hdrop, hlen, hperm, hbest⟩
  split
  case isFalse => exact ⟨htake, hdrop, hlen, hperm, hbest⟩
  -- improving candidate: the accumulator is replaced
  have hsle : s ≤ e := le_of_lt hs
  have heacc : e ≤ acc.prims.length := by rw [hlen]; exact he
  obtain ⟨p1, p2, p3, p4, p5, p6⟩ :=
    partitionRange_spec
      (fun p => decide (p.centroid.get d <
        minC + (maxC - minC) * (sb : ℚ) / 12)) acc.prims hsle heacc
  refine ⟨p1.trans htake, p2.trans hdrop, p3.trans hlen, p5.trans hperm, ?_⟩
  intro c _
  -- facts about the current subrange
  have hlenA : (subrange acc.prims s e).length = e - s := subrange_length heacc
  have hneA : subrange acc.prims s e ≠ [] :=
    List.ne_nil_of_length_pos (by omega)
  have hbndA : ∀ p ∈ subrange acc.prims s e, CentroidBndP p :=
    fun p hp => hbnd p (hperm.mem_iff.mp hp)
  have hminA : minC = minCentroidOf d (subrange acc.prims s e) :=
    hminC.trans (minCentroidOf_perm hperm.symm)
  have hmaxA : maxC = maxCentroidOf d (subrange acc.prims s e) :=
    hmaxC.trans (maxCentroidOf_perm hperm.symm)
  obtain ⟨pm, hpm, hpmv⟩ := minAttained d hneA hbndA
  obtain ⟨pM, hpM, hpMv⟩ := maxAttained d hneA hbndA
  have hle : minC ≤ maxC := by
    rw [hminA, hmaxA, ← hpmv]
    exact foldl_max_mem_le d hpm (-fltMax)
  have hlt : minC < maxC := lt_of_le_of_ne hle hne
  obtain ⟨hthr1, hthr2⟩ := thr_bounds hlt hsb1 hsb11
  constructor
  · -- the clamped position is the clamped below-count
    have hcnt : belowCount d (minC + (maxC - minC) * (sb : ℚ) / 12)
        (subrange (partitionRange
          (fun p => decide (p.centroid.get d <
            minC + (maxC - minC) * (sb : ℚ) / 12)) acc.prims s e).1 s e) =
        (subrange acc.prims s e).countP
          (fun p => decide (p.centroid.get d <
            minC + (maxC - minC) * (sb : ℚ) / 12)) := by
      rw [belowCount, p5.countP_eq]
    rw [hcnt, p6]
  constructor
  · -- below class nonempty: the minimum witness
    refine ⟨pm, p5.symm.mem_iff.mp hpm, ?_⟩
    rw [hpmv, ← hminA]
    exact hthr1
  · -- not-below class nonempty: the maximum witness
    refine ⟨pM, p5.symm.mem_iff.mp hpM, ?_⟩
    rw [hpMv, ← hmaxA]
    exact le_of_lt hthr2

/-- One dimension of the split search preserves the invariant. -/
theorem splitDim_inv {prims0 : List PrimInfo} {s e : Nat} (bounds : AABB)
    (d : Nat) (hs : s < e) (he : e ≤ prims0.length)
    (hbnd : ∀ p ∈ subrange prims0 s e, CentroidBndP p)
    {acc : SplitAcc} (hinv : SplitInv prims0 s e acc) :
    SplitInv prims0 s e (splitDim s e bounds acc d) := by
  have hperm := hinv.2.2.2.1
  unfold splitDim
  dsimp only
  split
  · exact hinv
  case isFalse hne =>
    apply foldlPreserveMem (P := SplitInv prims0 s e)
    · intro acc' sb hsb hinv'
      rw [List.mem_range'_1] at hsb
      exact tryBucket_inv bounds d _ hs he hbnd
        (minCentroidOf_perm hperm) (maxCentroidOf_perm hperm) hne
        hsb.1 (by omega) hinv'
    · exact hinv

/-- The split search establishes its invariant from scratch. -/
theorem findBestSplit_inv (prims0 : List PrimInfo) (s e : Nat) (bounds : AABB)
    (hs : s < e) (he : e ≤ prims0.length)
    (hbnd : ∀ p ∈ subrange prims0 s e, CentroidBndP p) :
    SplitInv prims0 s e (findBestSplit prims0 s e bounds) := by
  unfold findBestSplit
  apply foldlPreserve (P := SplitInv prims0 s e)
  · intro acc dd hacc
    exact splitDim_inv bounds dd hs he hbnd hacc
  · exact ⟨rfl, rfl, rfl, List.Perm.refl _, fun c h => by cases h⟩

/-- In a list sorted by the centroid order along `d`, every element
strictly below `t` sits at a position strictly below the count of such
elements (they form a prefix). -/
theorem sorted_below_prefix {d : Nat} {t : ℚ} :
    ∀ {l : List PrimInfo}, List.Sorted (dimLE d) l →
      ∀ (j : Nat) (hj : j < l.length),
        (l.get ⟨j, hj⟩).centroid.get d < t →
        j < l.countP fun p => decide (p.centroid.get d < t) := by
  intro l
  induction l with
  | nil => intro _ j hj; simp at hj
  | cons x xs ih =>
    intro hsort j hj hbelow
    rw [List.sorted_cons] at hsort
    obtain ⟨hx, hxs⟩ := hsort
    match j with
    | 0 =>
      have hpx : x.centroid.get d < t := by simpa using hbelow
      rw [List.countP_cons]
      simp [hpx]
    | j + 1 =>
      have hj' : j < xs.length := by simpa using hj
      have hy : (xs.get ⟨j, hj'⟩).centroid.get d < t := by simpa using hbelow
      have hmem : xs.get ⟨j, hj'⟩ ∈ xs := List.get_mem ..
      have hle : x.centroid.get d ≤ (xs.get ⟨j, hj'⟩).centroid.get d := hx _ hmem
      have hpx : x.centroid.get d < t := lt_of_le_of_lt hle hy
      have hih := ih hxs j hj' hy
      rw [List.countP_cons]
      simp [hpx]
      omega

/-- **C3.**  For every range that `build` splits (`count > 4`, best SAH
cost recorded and below `count`), after the final physical partition
(`nth_element` around the returned position along the returned
dimension), every primitive whose centroid coordinate on the chosen
split axis is strictly below the chosen bucket-boundary threshold is
placed strictly to the left of the split index.  The centroid-range
hypothesis is float-representability, automatic in the source. -/
theorem C3_below_threshold_left (prims : List PrimInfo) (s e : Nat)
    (bounds : AABB) (c : ℚ)
    (hcount : 4 < e - s) (he : e ≤ prims.length)
    (hbnd : ∀ p ∈ subrange prims s e, CentroidBndP p)
    (hsome : (findBestSplit prims s e bounds).bestCost = some c)
    (hbeneficial : c < ((e - s : Nat) : ℚ)) :
    ∀ j, s ≤ j → j < e →
      ((sortRange (findBestSplit prims s e bounds).prims s e
          (findBestSplit prims s e bounds).bestDim).getD j PrimInfo.zero).centroid.get
          (findBestSplit prims s e bounds).bestDim <
        (findBestSplit prims s e bounds).bestThr →
      j < (findBestSplit prims s e bounds).bestPos := by
  intro j hsj hje hbelow
  have hs : s < e := by omega
  obtain ⟨htake, hdrop, hlen, hperm, hbest⟩ :=
    findBestSplit_inv prims s e bounds hs he hbnd
  obtain ⟨hpos, ⟨pb, hpb, hpbv⟩, ⟨pn, hpn, hpnv⟩⟩ := hbest c hsome
  set F := findBestSplit prims s e bounds with hF
  have heF : e ≤ F.prims.length := by rw [hlen]; exact he
  obtain ⟨q1, q2, q3, q4, q5⟩ := sortRange_spec F.prims F.bestDim (le_of_lt hs) heF
  set M := (subrange F.prims s e).insertionSort (dimLE F.bestDim) with hM
  have hMlen : M.length = e - s := by
    rw [hM, (List.perm_insertionSort (dimLE F.bestDim) _).length_eq,
      subrange_length heF]
  -- the element at j of the sorted array is the element at j - s of M
  have htakelen : ((F.prims).take s).length = s := by
    simp
    omega
  have hMlen' : (List.insertionSort (dimLE F.bestDim) (subrange F.prims s e)).length
      = e - s := by
    rw [(List.perm_insertionSort (dimLE F.bestDim) _).length_eq, subrange_length heF]
  have hgetj : (sortRange F.prims s e F.bestDim).getD j PrimInfo.zero =
      M.getD (j - s) PrimInfo.zero := by
    rw [sortRange]
    rw [List.append_assoc,
      List.getD_append_right _ _ _ _ (by rw [htakelen]; exact hsj), htakelen,
      List.getD_append _ _ _ _ (by rw [hMlen']; omega)]
  -- the count of below-threshold elements in the subrange
  set k := belowCount F.bestDim F.bestThr (subrange F.prims s e) with hk
  have hkM : (M.countP fun p => decide (p.centroid.get F.bestDim < F.bestThr)) = k := by
    rw [hM, (List.perm_insertionSort (dimLE F.bestDim) _).countP_eq]
    rfl
  have hslicelen : (subrange F.prims s e).length = e - s := subrange_length heF
  have hk1 : 1 ≤ k := by
    have : 0 < belowCount F.bestDim F.bestThr (subrange F.prims s e) :=
      List.countP_pos.mpr ⟨pb, hpb, by simpa using hpbv⟩
    omega
  have hk2 : k ≤ e - s - 1 := by
    have hkle : k ≤ e - s := by
      rw [hk, belowCount, ← hslicelen]
      exact List.countP_le_length _
    rcases Nat.lt_or_ge k (e - s) with h | h
    · omega
    · exfalso
      have hkeq : belowCount F.bestDim F.bestThr (subrange F.prims s e) =
          (subrange F.prims s e).length := by omega
      have hall := List.countP_eq_length.mp hkeq pn hpn
      simp at hall
      exact absurd hall (not_lt.mpr hpnv)
  have hposval : F.bestPos = s + k := by
    rw [hpos]
    omega
  -- the sorted prefix argument
  have hjM : j - s < M.length := by omega
  have hsorted : List.Sorted (dimLE F.bestDim) M :=
    List.sorted_insertionSort (dimLE F.bestDim) _
  have hgetM : M.getD (j - s) PrimInfo.zero = M.get ⟨j - s, hjM⟩ := by
    rw [List.getD_eq_getElem _ _ hjM]
    rfl
  have hlt := sorted_below_prefix hsorted (j - s) hjM
    (by rw [← hgetM, ← hgetj]; exact hbelow)
  rw [hkM] at hlt
  omega

set_option maxHeartbeats 4000000 in
/-- Evaluation of the split search on the five concrete descriptors:
best cost `259/88`, axis 0, position 2, threshold `4/3`, array order
unchanged (its subrange was already partitioned). -/
theorem w3prims_eval :
    findBestSplit w3prims 0 5 w3bounds =
      ⟨some (259 / 88), 0, 2, 4 / 3, w3prims⟩ := by
  norm_num [findBestSplit, splitDim, tryBucket, costBeats, mkBuckets, bucketTotal,
    bucketIndexOf, minCentroidOf, maxCentroidOf, partitionRange, subrange,
    w3prims, w3prim, w3bounds, AABB.empty, AABB.expandB, AABB.expandP,
    AABB.surfaceArea, vmin, vmax, Vec3.get, fltMax, Bucket.init, List.range',
    List.foldl, List.filter, List.countP, Int.toNat]

/-- Witness for C3: on the five spread descriptors the search records a
split at position 2 with threshold `4/3` on axis 0; the sorted element
at index 1 (centroid `1`) lies below the threshold and indeed lands
strictly left of the split position. -/
theorem C3_below_threshold_left_witness :
    1 < (findBestSplit w3prims 0 5 w3bounds).bestPos :=
  C3_below_threshold_left w3prims 0 5 w3bounds (259 / 88)
    (by decide) (by decide)
    (by
      intro p hp
      simp [subrange, w3prims, w3prim] at hp
      rcases hp with h | h | h | h | h <;>
        subst h <;>
        exact ⟨by norm_num [fltMax], by norm_num [fltMax], by norm_num [fltMax]⟩)
    (by rw [w3prims_eval])
    (by norm_num)
    1 (by decide) (by decide)
    (by
      rw [w3prims_eval]
      norm_num [sortRange, subrange, w3prims, w3prim, dimLE,
        List.insertionSort, List.orderedInsert, Vec3.get, PrimInfo.zero])

/-- Counterexample to C1 as stated: for the triangle with vertices
`(0,0,0)`, `(1,0,0)`, `(3,0,0)`, the centroid `build` stores in its
primitive descriptor (the bounding-box center, `x = 3/2`) is **not** the
vertex-position average (`x = 4/3`). -/
theorem C1_centroid_not_vertex_average_cex :
    ((mkPrimInfo [cexTri]).getD 0 PrimInfo.zero).centroid ≠ vertexAverage cexTri := by
  norm_num [mkPrimInfo, cexTri, getTriangleBounds, AABB.center, AABB.empty,
    AABB.expandP, vmin, vmax, vertexAverage, fltMax, Vec4.xyz, Vec3.mk.injEq]

/-- **C1, amended.**  The centroid stored in every primitive descriptor
built by `build` — and used for every SAH split decision — is the center
of the triangle's axis-aligned bounding box (`bounds.center()`), not the
vertex-position average. -/
theorem C1_centroid_is_box_center (tris : List Triangle) (i : Nat)
    (hi : i < tris.length) :
    (mkPrimInfo tris).getD i PrimInfo.zero =
      ⟨getTriangleBounds (tris.getD i Triangle.zero),
       (getTriangleBounds (tris.getD i Triangle.zero)).center, (i : Int)⟩ := by
  have h1 : i < (mkPrimInfo tris).length := by
    simpa [mkPrimInfo] using hi
  rw [List.getD_eq_getElem _ _ h1, List.getD_eq_getElem _ _ hi]
  simp [mkPrimInfo]

/-- Witness for the amended C1 at the counterexample triangle. -/
theorem C1_centroid_is_box_center_witness :
    (mkPrimInfo [cexTri]).getD 0 PrimInfo.zero =
      ⟨getTriangleBounds ([cexTri].getD 0 Triangle.zero),
       (getTriangleBounds ([cexTri].getD 0 Triangle.zero)).center, (0 : Int)⟩ :=
  C1_centroid_is_box_center [cexTri] 0 (by decide)

/-- Counterexample to C2 as stated: translating the degenerate triangle
at the origin (cached centroid `cx = 0`) by `(1,0,0)` moves every vertex
to `x = 1`, so the transformed vertex average is `1`, yet the output's
cached `cx` is still `0` — `ApplyTransform` does not recompute it. -/
theorem C2_centroid_not_recomputed_cex :
    ((ApplyTransform (fun _ => ⟨0, 0, 0, 0⟩) [Triangle.zero] trM).getD 0
        Triangle.zero).cx ≠
      (((ApplyTransform (fun _ => ⟨0, 0, 0, 0⟩) [Triangle.zero] trM).getD 0
          Triangle.zero).v0.x +
        ((ApplyTransform (fun _ => ⟨0, 0, 0, 0⟩) [Triangle.zero] trM).getD 0
          Triangle.zero).v1.x +
        ((ApplyTransform (fun _ => ⟨0, 0, 0, 0⟩) [Triangle.zero] trM).getD 0
          Triangle.zero).v2.x) / 3 := by
  norm_num [ApplyTransform, xformP, trM, Triangle.zero, Vec4.xyz]

/-- **C2, amended.**  After `ApplyTransform`, each output triangle's
cached centroid fields `cx, cy, cz` are copied unchanged from the source
triangle; they are not recomputed from the transformed vertex
positions. -/
theorem C2_centroid_copied_unchanged (xN : Vec3 → Vec4) (src : List Triangle)
    (M : Mat4) (i : Nat) (hi : i < src.length) :
    ((ApplyTransform xN src M).getD i Triangle.zero).cx = (src.getD i Triangle.zero).cx ∧
    ((ApplyTransform xN src M).getD i Triangle.zero).cy = (src.getD i Triangle.zero).cy ∧
    ((ApplyTransform xN src M).getD i Triangle.zero).cz = (src.getD i Triangle.zero).cz := by
  have h1 : i < (ApplyTransform xN src M).length := by
    simpa [ApplyTransform] using hi
  rw [List.getD_eq_getElem _ _ h1, List.getD_eq_getElem _ _ hi]
  simp [ApplyTransform]

/-- Witness for the amended C2 at the translated degenerate triangle. -/
theorem C2_centroid_copied_unchanged_witness :
    ((ApplyTransform (fun _ => ⟨0, 0, 0, 0⟩) [Triangle.zero] trM).getD 0
        Triangle.zero).cx = ([Triangle.zero].getD 0 Triangle.zero).cx ∧
    ((ApplyTransform (fun _ => ⟨0, 0, 0, 0⟩) [Triangle.zero] trM).getD 0
        Triangle.zero).cy = ([Triangle.zero].getD 0 Triangle.zero).cy ∧
    ((ApplyTransform (fun _ => ⟨0, 0, 0, 0⟩) [Triangle.zero] trM).getD 0
        Triangle.zero).cz = ([Triangle.zero].getD 0 Triangle.zero).cz :=
  C2_centroid_copied_unchanged (fun _ => ⟨0, 0, 0, 0⟩) [Triangle.zero] trM 0
    (by decide)

/-- **C9.**  `build` on an empty triangle sequence returns normally with
both the node array and the primitive-index array empty. -/
theorem C9_empty_input_empty_output (bld : BVHBuilder) :
    (build bld []).nodes = [] ∧ (build bld []).primitiveIndices = [] := by
  constructor <;> rfl

/-- **C10.**  `build` first clears both arrays, so its result depends
only on the current input: rebuilding after any earlier build leaves the
builder exactly as a fresh builder's build of the second input. -/
theorem C10_build_state_independent (bld : BVHBuilder)
    (T1 T2 : List Triangle) :
    build (build bld T1) T2 = build builder0 T2 := rfl

/-! ### Helper lemmas: node-array bookkeeping and subtree transfer -/

theorem set_append_len {α : Type _} (l : List α) (a b : α) :
    (l ++ [a]).set l.length b = l ++ [b] := by
  induction l with
  | nil => rfl
  | cons x l ih => simpa using ih

theorem getD_append_len (l : List BVHNode) (a d : BVHNode) :
    (l ++ [a]).getD l.length d = a := by
  rw [List.getD_append_right _ _ _ _ (le_refl _)]
  simp

theorem subrange_of_take {α : Type _} (xs : List α) (s m : Nat) :
    subrange xs s m = (xs.take m).drop s := by
  rw [subrange, List.drop_take]

theorem subrange_of_drop {α : Type _} (xs : List α) (s e : Nat) :
    subrange xs s e = (xs.drop s).take (e - s) := rfl

theorem subrange_append_mid {α : Type _} (xs : List α) (s m e : Nat)
    (h1 : s ≤ m) (h2 : m ≤ e) :
    subrange xs s e = subrange xs s m ++ subrange xs m e := by
  have he : e - s = (m - s) + (e - m) := by omega
  rw [subrange_of_drop, he, List.take_add, ← subrange_of_drop]
  congr 1
  rw [subrange_of_drop, List.drop_drop]
  congr 2
  omega

theorem subtree_lt {nodes : List BVHNode} {idx hi : Nat}
    (h : Subtree nodes idx hi) : idx < hi := by
  induction h with
  | leaf => omega
  | node idx m hi _ _ _ _ _ ih1 ih2 => omega

/-- `Subtree` only reads structure fields inside its range, so it
transfers across arrays that agree there. -/
theorem subtree_transfer {n1 n2 : List BVHNode} {idx hi : Nat}
    (hst : Subtree n1 idx hi) (hlen : hi ≤ n2.length)
    (hag : ∀ j, idx ≤ j → j < hi →
      n2.getD j BVHNode.placeholder = n1.getD j BVHNode.placeholder) :
    Subtree n2 idx hi := by
  induction hst with
  | leaf idx hidx hleft =>
    exact Subtree.leaf idx (by omega) (by rw [hag idx (le_refl _) (by omega)]; exact hleft)
  | node idx m hi hidx hleft hright hsl hsr ih1 ih2 =>
    have hm : m < hi := subtree_lt hsr
    have him : idx + 1 < m := subtree_lt hsl
    refine Subtree.node idx m hi (by omega)
      (by rw [hag idx (le_refl _) (by omega)]; exact hleft)
      (by rw [hag idx (le_refl _) (by omega)]; exact hright)
      (ih1 (by omega) fun j h1 h2 => hag j (by omega) (by omega))
      (ih2 hlen fun j h1 h2 => hag j (by omega) h2)

/-- `NodeOK` for every node of a subtree transfers across arrays that
agree on the subtree's range (children of in-range internal nodes stay
in range). -/
theorem nodeOK_transfer {n1 n2 : List BVHNode} {idx hi : Nat}
    (hst : Subtree n1 idx hi)
    (hag : ∀ j, idx ≤ j → j < hi →
      n2.getD j BVHNode.placeholder = n1.getD j BVHNode.placeholder)
    (hok : ∀ j, idx ≤ j → j < hi → NodeOK n1 j) :
    ∀ j, idx ≤ j → j < hi → NodeOK n2 j := by
  induction hst with
  | leaf idx hidx hleft =>
    intro j h1 h2
    have hj : j = idx := by omega
    subst hj
    intro h0
    rw [hag j (le_refl _) (by omega)] at h0 ⊢
    exact absurd hleft (by omega)
  | node idx m hi hidx hleft hright hsl hsr ih1 ih2 =>
    have hm : m < hi := subtree_lt hsr
    have him : idx + 1 < m := subtree_lt hsl
    intro j h1 h2
    by_cases hj0 : j = idx
    · -- j = idx: the root of this subtree
      subst hj0
      intro h0
      have hokj := hok j (le_refl _) (by omega)
      rw [hag j (le_refl _) (by omega)] at h0 ⊢
      rw [hleft, hright]
      simp only [Int.toNat_natCast]
      rw [hag (j + 1) (by omega) (by omega), hag m (by omega) (by omega)]
      have hthis := hokj h0
      rw [hleft, hright] at hthis
      simp only [Int.toNat_natCast] at hthis
      exact hthis
    · rcases Nat.lt_or_ge j m with hjm | hjm
      · exact ih1 (fun k k1 k2 => hag k (by omega) (by omega))
          (fun k k1 k2 => hok k (by omega) (by omega)) j (by omega) hjm
      · exact ih2 (fun k k1 k2 => hag k (by omega) k2)
          (fun k k1 k2 => hok k (by omega) k2) j hjm h2

/-- The array-shape part of the split-search invariant (no condition on
the recorded candidate). -/
def SplitShape (prims0 : List PrimInfo) (s e : Nat) (acc : SplitAcc) : Prop :=
  acc.prims.take s = prims0.take s ∧ acc.prims.drop e = prims0.drop e ∧
    acc.prims.length = prims0.length ∧
    List.Perm (subrange acc.prims s e) (subrange prims0 s e)

theorem tryBucket_shape {prims0 : List PrimInfo} {s e : Nat} (bounds : AABB)
    (d : Nat) {minC maxC : ℚ} (bks : List Bucket) {sb : Nat}
    (hse : s ≤ e) (he : e ≤ prims0.length)
    {acc : SplitAcc} (h : SplitShape prims0 s e acc) :
    SplitShape prims0 s e (tryBucket s e bounds d minC maxC bks acc sb) := by
  obtain ⟨h1, h2, h3, h4⟩ := h
  unfold tryBucket
  dsimp only
  split
  · exact ⟨h1, h2, h3, h4⟩
  split
  case isFalse => exact ⟨h1, h2, h3, h4⟩
  obtain ⟨p1, p2, p3, p4, p5, p6⟩ :=
    partitionRange_spec
      (fun p => decide (p.centroid.get d < minC + (maxC - minC) * (sb : ℚ) / 12))
      acc.prims hse (by rw [h3]; exact he)
  exact ⟨p1.trans h1, p2.trans h2, p3.trans h3, p5.trans h4⟩

theorem splitDim_shape {prims0 : List PrimInfo} {s e : Nat} (bounds : AABB)
    (d : Nat) (hse : s ≤ e) (he : e ≤ prims0.length)
    {acc : SplitAcc} (h : SplitShape prims0 s e acc) :
    SplitShape prims0 s e (splitDim s e bounds acc d) := by
  unfold splitDim
  dsimp only
  split
  · exact h
  · apply foldlPreserveMem (P := SplitShape prims0 s e)
    · intro acc' sb _ hacc'
      exact tryBucket_shape bounds d _ hse he hacc'
    · exact h

theorem findBestSplit_shape (prims0 : List PrimInfo) (s e : Nat) (bounds : AABB)
    (hse : s ≤ e) (he : e ≤ prims0.length) :
    SplitShape prims0 s e (findBestSplit prims0 s e bounds) := by
  unfold findBestSplit
  apply foldlPreserve (P := SplitShape prims0 s e)
  · intro acc d hacc
    exact splitDim_shape bounds d hse he hacc
  · exact ⟨rfl, rfl, rfl, List.Perm.refl _⟩

/-- Full postcondition of one `buildRecursive` call on the range
`[s, e)`: the returned node index is where the placeholder was appended;
earlier nodes and the out-of-range primitives are untouched; the range is
permuted in place; the appended primitive indices are exactly the
range's (as a multiset); the new node's box is the range's bound union;
the appended nodes form a subtree in the builder's layout; and every new
internal node's box is the exact union of its children's. -/
structure BRSpec (st : BVHBuilder) (prims : List PrimInfo) (s e : Nat)
    (R : BVHBuilder × List PrimInfo × Nat) : Prop where
  idx_eq : R.2.2 = st.nodes.length
  grow : st.nodes.length < R.1.nodes.length
  nodes_prefix : R.1.nodes.take st.nodes.length = st.nodes
  prims_len : R.2.1.length = prims.length
  prims_take : R.2.1.take s = prims.take s
  prims_drop : R.2.1.drop e = prims.drop e
  prims_perm : List.Perm (subrange R.2.1 s e) (subrange prims s e)
  pidx_prefix : R.1.primitiveIndices.take st.primitiveIndices.length =
    st.primitiveIndices
  pidx_len : st.primitiveIndices.length ≤ R.1.primitiveIndices.length
  pidx_new : List.Perm (R.1.primitiveIndices.drop st.primitiveIndices.length)
    ((subrange prims s e).map (·.primitiveIndex))
  root_box : (R.1.nodes.getD st.nodes.length BVHNode.placeholder).box =
    rangeBounds prims s e
  sub : Subtree R.1.nodes st.nodes.length R.1.nodes.length
  ok : ∀ j, st.nodes.length ≤ j → j < R.1.nodes.length → NodeOK R.1.nodes j

/-- A single appended leaf node is a (one-node) subtree. -/
theorem subtree_singleton (l : List BVHNode) (a : BVHNode)
    (ha : a.leftChild < 0) :
    Subtree (l ++ [a]) l.length (l ++ [a]).length := by
  have h1 : (l ++ [a]).length = l.length + 1 := by simp
  rw [h1]
  refine Subtree.leaf l.length (by simp) ?_
  rw [getD_append_len]
  exact ha

/-- `createLeaf` after the placeholder append satisfies the
postcondition, for any working array whose shape matches the entry
array. -/
theorem createLeaf_spec (st : BVHBuilder) (prims prims' : List PrimInfo)
    (s e : Nat) (hse : s < e)
    (ht : prims'.take s = prims.take s) (hd : prims'.drop e = prims.drop e)
    (hl : prims'.length = prims.length)
    (hp : List.Perm (subrange prims' s e) (subrange prims s e)) :
    BRSpec st prims s e
      (createLeaf { st with nodes := st.nodes ++ [BVHNode.placeholder] }
        st.nodes.length (rangeBounds prims s e) prims' s e,
       prims', st.nodes.length) := by
  have hset : ∀ nd : BVHNode,
      (st.nodes ++ [BVHNode.placeholder]).set st.nodes.length nd =
        st.nodes ++ [nd] :=
    fun nd => set_append_len st.nodes _ nd
  refine ⟨rfl, ?_, ?_, hl, ht, hd, hp, ?_, ?_, ?_, ?_, ?_, ?_⟩
  · simp [createLeaf, hset]
  · simp only [createLeaf]
    rw [hset, List.take_left]
  · simp only [createLeaf]
    rw [List.take_left]
  · simp only [createLeaf]
    simp
  · simp only [createLeaf]
    rw [List.drop_left]
    exact hp.map _
  · simp only [createLeaf]
    rw [hset, getD_append_len]
    rfl
  · simp only [createLeaf]
    rw [hset]
    refine subtree_singleton st.nodes _ ?_
    show -((st.primitiveIndices.length : Int) + 1) < 0
    omega
  · simp only [createLeaf]
    rw [hset]
    intro j h1 h2
    simp at h2
    have hj : j = st.nodes.length := by omega
    subst hj
    intro h0
    rw [getD_append_len] at h0
    simp at h0
    omega

/-- The main induction: every `buildRecursive` call on a valid nonempty
range satisfies its postcondition. -/
theorem buildRecursive_spec :
    ∀ (n : Nat) (st : BVHBuilder) (prims : List PrimInfo) (s e : Nat),
      e - s = n → s < e → e ≤ prims.length →
      BRSpec st prims s e (buildRecursive st prims s e) := by
  intro n
  induction n using Nat.strong_induction_on with
  | _ n ih =>
    intro st prims s e hn hse he
    rw [buildRecursive]
    dsimp only
    by_cases h4 : e - s ≤ 4
    · rw [if_pos h4]
      exact createLeaf_spec st prims prims s e hse rfl rfl rfl (List.Perm.refl _)
    rw [if_neg h4]
    obtain ⟨sh1, sh2, sh3, sh4⟩ :=
      findBestSplit_shape prims s e (rangeBounds prims s e) (le_of_lt hse) he
    obtain ⟨hp1, hp2⟩ :=
      findBestSplit_pos_bounds prims s e (rangeBounds prims s e) (by omega)
    set r := findBestSplit prims s e (rangeBounds prims s e) with hr
    by_cases hc : costGE r.bestCost (e - s) = true
    · rw [if_pos hc]
      exact createLeaf_spec st prims r.prims s e hse sh1 sh2 sh3 sh4
    rw [if_neg hc]
    set pos := r.bestPos with hposdef
    have hre : e ≤ r.prims.length := by rw [sh3]; exact he
    obtain ⟨sr1, sr2, sr3, sr4, sr5⟩ :=
      sortRange_spec r.prims r.bestDim (le_of_lt hse) hre
    set prims2 := sortRange r.prims s e r.bestDim with hprims2
    set st1 : BVHBuilder := { st with nodes := st.nodes ++ [BVHNode.placeholder] }
      with hst1
    have hst1len : st1.nodes.length = st.nodes.length + 1 := by simp [hst1]
    have hlen2 : prims2.length = prims.length := by rw [sr3, sh3]
    have hL := ih (pos - s) (by omega) st1 prims2 s pos rfl (by omega)
      (by rw [hlen2]; omega)
    set u := buildRecursive st1 prims2 s pos with hu
    have hR := ih (e - pos) (by omega) u.1 u.2.1 pos e rfl (by omega)
      (by rw [hL.prims_len, hlen2]; omega)
    set v := buildRecursive u.1 u.2.1 pos e with hv
    set n0 := st.nodes.length with hn0
    have hidxL : u.2.2 = n0 + 1 := by rw [hL.idx_eq, hst1len]
    set m := u.1.nodes.length with hm
    have hidxR : v.2.2 = m := hR.idx_eq
    set lenV := v.1.nodes.length with hlenV
    have hgrow1 : n0 + 1 < m := by
      have := hL.grow
      rw [hst1len] at this
      exact this
    have hgrow2 : m < lenV := hR.grow
    -- the subrange of the right half is untouched by the left build
    have hsubRight : subrange u.2.1 pos e = subrange prims2 pos e := by
      rw [subrange_of_drop, subrange_of_drop, hL.prims_drop]
    -- the subrange permutation chain down to the original array
    have hchain2 : List.Perm (subrange prims2 s e) (subrange prims s e) := by
      rw [sr4]
      exact (List.perm_insertionSort _ _).trans sh4
    -- prims results
    have hPlen : v.2.1.length = prims.length := by
      rw [hR.prims_len, hL.prims_len, hlen2]
    have hPtake : v.2.1.take s = prims.take s := by
      calc v.2.1.take s = (v.2.1.take pos).take s := by
            rw [List.take_take, min_eq_left (by omega)]
        _ = (u.2.1.take pos).take s := by rw [hR.prims_take]
        _ = u.2.1.take s := by rw [List.take_take, min_eq_left (by omega)]
        _ = prims2.take s := hL.prims_take
        _ = r.prims.take s := sr1
        _ = prims.take s := sh1
    have hPdrop : v.2.1.drop e = prims.drop e := by
      have h1 : u.2.1.drop e = (u.2.1.drop pos).drop (e - pos) := by
        rw [List.drop_drop]
        congr 1
        omega
      have h2 : prims2.drop e = (prims2.drop pos).drop (e - pos) := by
        rw [List.drop_drop]
        congr 1
        omega
      calc v.2.1.drop e = u.2.1.drop e := hR.prims_drop
        _ = (u.2.1.drop pos).drop (e - pos) := h1
        _ = (prims2.drop pos).drop (e - pos) := by rw [hL.prims_drop]
        _ = prims2.drop e := h2.symm
        _ = r.prims.drop e := sr2
        _ = prims.drop e := sh2
    have hsubLeft : subrange v.2.1 s pos = subrange u.2.1 s pos := by
      rw [subrange_of_take, subrange_of_take, hR.prims_take]
    have hPperm : List.Perm (subrange v.2.1 s e) (subrange prims s e) := by
      have hA : subrange v.2.1 s e = subrange v.2.1 s pos ++ subrange v.2.1 pos e :=
        subrange_append_mid v.2.1 s pos e (by omega) (by omega)
      have hB : subrange prims2 s e = subrange prims2 s pos ++ subrange prims2 pos e :=
        subrange_append_mid prims2 s pos e (by omega) (by omega)
      rw [hA]
      refine List.Perm.trans ?_ hchain2
      rw [hB]
      refine List.Perm.append ?_ ?_
      · rw [hsubLeft]
        exact hL.prims_perm
      · have hRp := hR.prims_perm
        rw [hsubRight] at hRp
        exact hRp
    -- primitive-index bookkeeping
    set k0 := st.primitiveIndices.length with hk0
    set k1 := u.1.primitiveIndices.length with hk1
    have hk0le : k0 ≤ k1 := hL.pidx_len
    have hk1le : k1 ≤ v.1.primitiveIndices.length := hR.pidx_len
    have hPidxPrefix : v.1.primitiveIndices.take k0 = st.primitiveIndices := by
      calc v.1.primitiveIndices.take k0
          = (v.1.primitiveIndices.take k1).take k0 := by
            rw [List.take_take, min_eq_left hk0le]
        _ = u.1.primitiveIndices.take k0 := by rw [hR.pidx_prefix]
        _ = st.primitiveIndices := hL.pidx_prefix
    have hTlen : (v.1.primitiveIndices.take k1).length = k1 := by
      simp
      omega
    have hdecomp : v.1.primitiveIndices.drop k0 =
        (v.1.primitiveIndices.take k1).drop k0 ++ v.1.primitiveIndices.drop k1 := by
      conv_lhs => rw [← List.take_append_drop k1 v.1.primitiveIndices]
      rw [List.drop_append_of_le_length (by rw [hTlen]; exact hk0le)]
    have hPidxNew : List.Perm (v.1.primitiveIndices.drop k0)
        ((subrange prims s e).map (·.primitiveIndex)) := by
      rw [hdecomp, hR.pidx_prefix]
      have hmapsplit : (subrange prims2 s e).map (·.primitiveIndex) =
          (subrange prims2 s pos).map (·.primitiveIndex) ++
            (subrange prims2 pos e).map (·.primitiveIndex) := by
        rw [subrange_append_mid prims2 s pos e (by omega) (by omega), List.map_append]
      have hright : List.Perm (v.1.primitiveIndices.drop k1)
          ((subrange prims2 pos e).map (·.primitiveIndex)) := by
        have hRn := hR.pidx_new
        rw [hsubRight] at hRn
        exact hRn
      refine List.Perm.trans (List.Perm.append hL.pidx_new hright) ?_
      rw [← hmapsplit]
      exact hchain2.map _
    -- boxes of the two freshly built children
    have hboxL : (u.1.nodes.getD (n0 + 1) BVHNode.placeholder).box =
        rangeBounds prims2 s pos := by
      have hLb := hL.root_box
      rw [hst1len] at hLb
      exact hLb
    have hboxR : (v.1.nodes.getD m BVHNode.placeholder).box =
        rangeBounds u.2.1 pos e := hR.root_box
    -- the parent box is the exact union of the children's
    have hboxSplit : rangeBounds prims s e =
        (rangeBounds prims2 s pos).expandB (rangeBounds u.2.1 pos e) := by
      rw [rangeBounds_eq_boundsOf, rangeBounds_eq_boundsOf, rangeBounds_eq_boundsOf,
        hsubRight, ← boundsOf_perm hchain2,
        subrange_append_mid prims2 s pos e (by omega) (by omega), boundsOf_append]
    -- subtree facts and per-index agreement with the children's arrays
    have hsubL : Subtree u.1.nodes (n0 + 1) m := by
      have hLs := hL.sub
      rw [hst1len] at hLs
      exact hLs
    have hn0v : n0 < v.1.nodes.length := by omega
    have hagL : ∀ j, n0 + 1 ≤ j → j < m →
        ∀ nd, (v.1.nodes.set n0 nd).getD j BVHNode.placeholder =
          u.1.nodes.getD j BVHNode.placeholder := by
      intro j h1 h2 nd
      rw [getD_set_ne (by omega)]
      exact prefix_getD hR.nodes_prefix h2 _
    have hagR : ∀ j, m ≤ j → j < lenV →
        ∀ nd, (v.1.nodes.set n0 nd).getD j BVHNode.placeholder =
          v.1.nodes.getD j BVHNode.placeholder := by
      intro j h1 h2 nd
      exact getD_set_ne (by omega)
    have hokL : ∀ j, n0 + 1 ≤ j → j < m → NodeOK u.1.nodes j := by
      intro j a b
      exact hL.ok j (by rw [hst1len]; exact a) b
    refine ⟨rfl, ?_, ?_, hPlen, hPtake, hPdrop, hPperm, hPidxPrefix, ?_, hPidxNew,
      ?_, ?_, ?_⟩
    · dsimp only
      simp only [List.length_set]
      omega
    · dsimp only
      rw [take_set_of_le _ _ (le_refl n0)]
      have hLpre : u.1.nodes.take (n0 + 1) = st1.nodes := by
        rw [← hst1len]
        exact hL.nodes_prefix
      calc v.1.nodes.take n0 = (v.1.nodes.take m).take n0 := by
            rw [List.take_take, min_eq_left (by omega)]
        _ = u.1.nodes.take n0 := by rw [hR.nodes_prefix]
        _ = (u.1.nodes.take (n0 + 1)).take n0 := by
            rw [List.take_take, min_eq_left (by omega)]
        _ = st1.nodes.take n0 := by rw [hLpre]
        _ = st.nodes := List.take_left ..
    · dsimp only
      omega
    · dsimp only
      rw [getD_set_self hn0v]
      rfl
    · dsimp only
      simp only [List.length_set]
      refine Subtree.node n0 m v.1.nodes.length
        (by simp only [List.length_set]; omega) ?_ ?_ ?_ ?_
      · rw [getD_set_self hn0v]
        show ((u.2.2 : Nat) : Int) = _
        rw [hidxL]
      · rw [getD_set_self hn0v]
        show ((v.2.2 : Nat) : Int) = _
        rw [hidxR]
      · exact subtree_transfer hsubL (by simp only [List.length_set]; omega)
          (fun j a b => hagL j a b _)
      · exact subtree_transfer hR.sub (by simp only [List.length_set]; omega)
          (fun j a b => hagR j a b _)
    · dsimp only
      intro j h1 h2
      simp only [List.length_set] at h2
      by_cases hj0 : j = n0
      · subst hj0
        intro h0
        rw [getD_set_self hn0v] at h0 ⊢
        dsimp only
        simp only [Int.toNat_natCast, hidxL, hidxR]
        rw [hagL (n0 + 1) (le_refl _) hgrow1, hagR m (le_refl _) hgrow2,
          hboxL, hboxR]
        show rangeBounds prims s e = _
        exact hboxSplit
      · rcases Nat.lt_or_ge j m with hjm | hjm
        · exact nodeOK_transfer hsubL (fun jj a b => hagL jj a b _) hokL j
            (by omega) hjm
        · exact nodeOK_transfer hR.sub (fun jj a b => hagR jj a b _) hR.ok j hjm
            (by omega)

/-! ### Helper lemmas: refit -/

/-- Two nodes that may differ only in their stored box. -/
def sameButBox (a b : BVHNode) : Prop :=
  a.leftChild = b.leftChild ∧ a.rightChild = b.rightChild ∧
    a.pad0 = b.pad0 ∧ a.pad1 = b.pad1

theorem sameButBox_refl (a : BVHNode) : sameButBox a a := ⟨rfl, rfl, rfl, rfl⟩

theorem sameButBox_trans {a b c : BVHNode} (h1 : sameButBox a b)
    (h2 : sameButBox b c) : sameButBox a c :=
  ⟨h1.1.trans h2.1, h1.2.1.trans h2.2.1, h1.2.2.1.trans h2.2.2.1,
    h1.2.2.2.trans h2.2.2.2⟩

theorem updateNodeBox_length (ns : List BVHNode) (i : Nat) (b : AABB) :
    (updateNodeBox ns i b).length = ns.length := by
  simp [updateNodeBox]

theorem updateNodeBox_getD_ne {ns : List BVHNode} {i j : Nat} {b : AABB}
    (h : i ≠ j) :
    (updateNodeBox ns i b).getD j BVHNode.placeholder =
      ns.getD j BVHNode.placeholder := by
  unfold updateNodeBox
  exact getD_set_ne h

theorem updateNodeBox_getD_self {ns : List BVHNode} {i : Nat} {b : AABB}
    (h : i < ns.length) :
    (updateNodeBox ns i b).getD i BVHNode.placeholder =
      { ns.getD i BVHNode.placeholder with min := toV4 b.min, max := toV4 b.max } := by
  unfold updateNodeBox
  exact getD_set_self h

/-- `Subtree` transfers across arrays whose structure fields agree on the
range (boxes may differ). -/
theorem subtree_transfer_struct {n1 n2 : List BVHNode} {idx hi : Nat}
    (hst : Subtree n1 idx hi) (hlen : hi ≤ n2.length)
    (hag : ∀ j, idx ≤ j → j < hi →
      sameButBox (n2.getD j BVHNode.placeholder) (n1.getD j BVHNode.placeholder)) :
    Subtree n2 idx hi := by
  induction hst with
  | leaf idx hidx hleft =>
    refine Subtree.leaf idx (by omega) ?_
    rw [(hag idx (le_refl _) (by omega)).1]
    exact hleft
  | node idx m hi hidx hleft hright hsl hsr ih1 ih2 =>
    have hm : m < hi := subtree_lt hsr
    have him : idx + 1 < m := subtree_lt hsl
    exact Subtree.node idx m hi (by omega)
      ((hag idx (le_refl _) (by omega)).1.trans hleft)
      ((hag idx (le_refl _) (by omega)).2.1.trans hright)
      (ih1 (by omega) fun j h1 h2 => hag j (by omega) (by omega))
      (ih2 hlen fun j h1 h2 => hag j (by omega) h2)

/-- Postcondition of `refitNode` on a subtree occupying `[idx, hi)`, for
any fuel at least the subtree size: length and entries outside the range
are untouched, structure fields everywhere are untouched, the root's
stored box is the returned box, and every node in the range satisfies
the exact-union invariant. -/
theorem refitNode_spec (prims : List Int) (tris : List Triangle) :
    ∀ (k : Nat) (nodes : List BVHNode) (idx hi : Nat), hi - idx = k →
      Subtree nodes idx hi → hi ≤ nodes.length →
      ∀ (fuel : Nat), hi - idx ≤ fuel →
      (refitNode fuel nodes prims tris idx).1.length = nodes.length ∧
      (∀ j, j < idx ∨ hi ≤ j →
        (refitNode fuel nodes prims tris idx).1.getD j BVHNode.placeholder =
          nodes.getD j BVHNode.placeholder) ∧
      (∀ j, sameButBox
        ((refitNode fuel nodes prims tris idx).1.getD j BVHNode.placeholder)
        (nodes.getD j BVHNode.placeholder)) ∧
      ((refitNode fuel nodes prims tris idx).1.getD idx BVHNode.placeholder).box =
        (refitNode fuel nodes prims tris idx).2 ∧
      (∀ j, idx ≤ j → j < hi → NodeOK (refitNode fuel nodes prims tris idx).1 j) := by
  intro k
  induction k using Nat.strong_induction_on with
  | _ k ih =>
    intro nodes idx hi hk hst hhi fuel hfuel
    have hlt : idx < hi := subtree_lt hst
    cases fuel with
    | zero => omega
    | succ f =>
      cases hst with
      | leaf i hidx hleft =>
        rw [refitNode]
        dsimp only
        rw [if_pos hleft]
        dsimp only
        refine ⟨updateNodeBox_length .., ?_, ?_, ?_, ?_⟩
        · intro j hj
          exact updateNodeBox_getD_ne (by omega)
        · intro j
          by_cases hj : idx = j
          · subst hj
            rw [updateNodeBox_getD_self hidx]
            exact ⟨rfl, rfl, rfl, rfl⟩
          · rw [updateNodeBox_getD_ne hj]
            exact sameButBox_refl _
        · rw [updateNodeBox_getD_self hidx]
          rfl
        · intro j h1 h2
          have hj : j = idx := by omega
          subst hj
          intro h0
          rw [updateNodeBox_getD_self hidx] at h0
          dsimp only at h0
          exact absurd hleft (by omega)
      | node i m h2 hidx hleft hright hsl hsr =>
        have hm : m < hi := subtree_lt hsr
        have him : idx + 1 < m := subtree_lt hsl
        -- the two recursive refits
        obtain ⟨L1, L2, L3, L4, L5⟩ := ih (m - (idx + 1)) (by omega) nodes (idx + 1) m
          rfl hsl (by omega) f (by omega)
        set resL := refitNode f nodes prims tris (idx + 1) with hresL
        have hsubR : Subtree resL.1 m hi :=
          subtree_transfer_struct hsr (by rw [L1]; omega) (fun j a b => L3 j)
        obtain ⟨R1, R2, R3, R4, R5⟩ := ih (hi - m) (by omega) resL.1 m hi
          rfl hsubR (by rw [L1]; omega) f (by omega)
        set resR := refitNode f resL.1 prims tris m with hresR
        have hint : ¬ (nodes.getD idx BVHNode.placeholder).leftChild < 0 := by
          rw [hleft]
          omega
        rw [refitNode]
        dsimp only
        rw [if_neg hint]
        rw [hleft, hright]
        simp only [Int.toNat_natCast]
        rw [← hresL, ← hresR]
        have hidxlen : idx < resR.1.length := by rw [R1, L1]; omega
        -- entry at idx is untouched by both recursive refits
        have hidxentry : resR.1.getD idx BVHNode.placeholder =
            nodes.getD idx BVHNode.placeholder := by
          rw [R2 idx (by omega), L2 idx (by omega)]
        refine ⟨?_, ?_, ?_, ?_, ?_⟩
        · rw [updateNodeBox_length, R1, L1]
        · intro j hj
          rw [updateNodeBox_getD_ne (by omega), R2 j (by omega), L2 j (by omega)]
        · intro j
          by_cases hj : idx = j
          · subst hj
            rw [updateNodeBox_getD_self hidxlen, hidxentry]
            exact ⟨rfl, rfl, rfl, rfl⟩
          · rw [updateNodeBox_getD_ne hj]
            exact sameButBox_trans (R3 j) (L3 j)
        · rw [updateNodeBox_getD_self hidxlen]
          rfl
        · intro j h1 h2
          by_cases hj : j = idx
          · -- the parent node: exact union of the two roots just written
            subst hj
            intro h0
            rw [updateNodeBox_getD_self hidxlen]
            rw [updateNodeBox_getD_self hidxlen] at h0
            dsimp only
            rw [hidxentry, hleft, hright]
            simp only [Int.toNat_natCast]
            have hLroot : (resR.1.getD (j + 1) BVHNode.placeholder).box = resL.2 := by
              rw [R2 (j + 1) (by omega)]
              exact L4
            have hRroot : (resR.1.getD m BVHNode.placeholder).box = resR.2 := R4
            rw [updateNodeBox_getD_ne (by omega), updateNodeBox_getD_ne (by omega),
              hLroot, hRroot]
            rfl
          · rcases Nat.lt_or_ge j m with hjm | hjm
            · -- inside the left subtree
              have hsubL' : Subtree resL.1 (idx + 1) m :=
                subtree_transfer_struct hsl (by rw [L1]; omega) (fun jj a b => L3 jj)
              refine nodeOK_transfer hsubL' ?_ L5 j (by omega) hjm
              intro jj a b
              rw [updateNodeBox_getD_ne (by omega), R2 jj (by omega)]
            · -- inside the right subtree
              have hsubRR : Subtree resR.1 m hi :=
                subtree_transfer_struct hsubR (by rw [R1, L1]; omega)
                  (fun jj a b => R3 jj)
              refine nodeOK_transfer hsubRR ?_ R5 j hjm h2
              intro jj a b
              exact updateNodeBox_getD_ne (by omega)

/-! ### Helper lemmas: build corollaries -/

theorem mkPrimInfo_length (tris : List Triangle) :
    (mkPrimInfo tris).length = tris.length := by
  simp [mkPrimInfo]

theorem subrange_full {α : Type _} (xs : List α) : subrange xs 0 xs.length = xs := by
  simp [subrange]

theorem build_eq (bld : BVHBuilder) (tris : List Triangle) (h : tris ≠ []) :
    build bld tris =
      (buildRecursive ⟨[], []⟩ (mkPrimInfo tris) 0 (mkPrimInfo tris).length).1 := by
  unfold build
  rw [if_neg (by simpa using h)]

/-- The builder postcondition at the top call of a nonempty `build`. -/
theorem build_spec (tris : List Triangle) (h : tris ≠ []) :
    BRSpec ⟨[], []⟩ (mkPrimInfo tris) 0 (mkPrimInfo tris).length
      (buildRecursive ⟨[], []⟩ (mkPrimInfo tris) 0 (mkPrimInfo tris).length) := by
  refine buildRecursive_spec ((mkPrimInfo tris).length - 0) ⟨[], []⟩
    (mkPrimInfo tris) 0 (mkPrimInfo tris).length rfl ?_ (le_refl _)
  rw [mkPrimInfo_length]
  exact List.length_pos.mpr h

theorem mkPrimInfo_getD (tris : List Triangle) (i : Nat) (hi : i < tris.length) :
    (mkPrimInfo tris).getD i PrimInfo.zero =
      ⟨getTriangleBounds (tris.getD i Triangle.zero),
       (getTriangleBounds (tris.getD i Triangle.zero)).center, (i : Int)⟩ := by
  have h1 : i < (mkPrimInfo tris).length := by
    simpa [mkPrimInfo] using hi
  rw [List.getD_eq_getElem _ _ h1, List.getD_eq_getElem _ _ hi]
  simp [mkPrimInfo]

theorem mkPrimInfo_indices (tris : List Triangle) :
    (mkPrimInfo tris).map (·.primitiveIndex) =
      (List.range tris.length).map (fun i : Nat => (i : Int)) := by
  apply List.ext_getElem
  · simp [mkPrimInfo]
  · intro i h1 h2
    simp [mkPrimInfo, List.getElem_map, List.getElem_enum, List.getElem_range]

theorem containsP_expandP_self (b : AABB) (p : Vec3) :
    (b.expandP p).containsP p :=
  ⟨vmin_le_right .., right_le_vmax ..⟩

theorem containsP_expandP_mono (b : AABB) (p q : Vec3) (h : b.containsP q) :
    (b.expandP p).containsP q :=
  ⟨vle_trans (vmin_le_left ..) h.1, vle_trans h.2 (left_le_vmax ..)⟩

/-- A triangle's bound box contains its three vertices. -/
theorem triBounds_contains (t : Triangle) :
    (getTriangleBounds t).containsP t.v0.xyz ∧
    (getTriangleBounds t).containsP t.v1.xyz ∧
    (getTriangleBounds t).containsP t.v2.xyz :=
  ⟨containsP_expandP_mono _ _ _ (containsP_expandP_mono _ _ _
      (containsP_expandP_self _ _)),
   containsP_expandP_mono _ _ _ (containsP_expandP_self _ _),
   containsP_expandP_self _ _⟩

theorem refitNode_length (fuel : Nat) :
    ∀ (nodes : List BVHNode) (prims : List Int) (tris : List Triangle) (idx : Nat),
      (refitNode fuel nodes prims tris idx).1.length = nodes.length := by
  induction fuel with
  | zero => intro nodes prims tris idx; rfl
  | succ f ih =>
    intro nodes prims tris idx
    rw [refitNode]
    dsimp only
    split
    · exact updateNodeBox_length ..
    · rw [updateNodeBox_length, ih, ih]

theorem refit_nodes_length (bld : BVHBuilder) (tris : List Triangle) :
    (refit bld tris).nodes.length = bld.nodes.length := by
  unfold refit
  split
  · rfl
  · exact refitNode_length ..

theorem refit_pidx (bld : BVHBuilder) (tris : List Triangle) :
    (refit bld tris).primitiveIndices = bld.primitiveIndices := by
  unfold refit
  split <;> rfl

/-- **C4.**  After `build`, the primitive-index array has exactly one
entry per input triangle and is a permutation of `0 .. N-1`: no index is
dropped or duplicated across the leaf runs. -/
theorem C4_primitive_indices_perm (bld : BVHBuilder) (tris : List Triangle) :
    (build bld tris).primitiveIndices.length = tris.length ∧
    List.Perm (build bld tris).primitiveIndices
      ((List.range tris.length).map (fun i : Nat => (i : Int))) := by
  by_cases h : tris = []
  · subst h
    exact ⟨rfl, List.Perm.refl _⟩
  · rw [build_eq bld tris h]
    have sp := build_spec tris h
    have hnew := sp.pidx_new
    simp only [List.length_nil, List.drop_zero] at hnew
    rw [subrange_full, mkPrimInfo_indices] at hnew
    refine ⟨?_, hnew⟩
    rw [hnew.length_eq]
    simp

/-- **C5.**  For a non-empty input, `build` emits a root node first
(index 0), and the root's box contains all three vertices of every input
triangle, componentwise. -/
theorem C5_root_contains_all (bld : BVHBuilder) (tris : List Triangle)
    (h : tris ≠ []) :
    (build bld tris).nodes ≠ [] ∧
    ∀ t ∈ tris,
      ((build bld tris).nodes.getD 0 BVHNode.placeholder).box.containsP t.v0.xyz ∧
      ((build bld tris).nodes.getD 0 BVHNode.placeholder).box.containsP t.v1.xyz ∧
      ((build bld tris).nodes.getD 0 BVHNode.placeholder).box.containsP t.v2.xyz := by
  rw [build_eq bld tris h]
  have sp := build_spec tris h
  constructor
  · exact List.ne_nil_of_length_pos sp.grow
  · intro t ht
    have hroot := sp.root_box
    simp only [List.length_nil] at hroot
    rw [rangeBounds_eq_boundsOf, subrange_full] at hroot
    obtain ⟨i, hi, hti⟩ := List.mem_iff_getElem.mp ht
    have hq : (mkPrimInfo tris).getD i PrimInfo.zero ∈ mkPrimInfo tris := by
      rw [List.getD_eq_getElem _ _ (by rw [mkPrimInfo_length]; exact hi)]
      exact List.getElem_mem ..
    have hqv : (mkPrimInfo tris).getD i PrimInfo.zero =
        ⟨getTriangleBounds t, (getTriangleBounds t).center, (i : Int)⟩ := by
      rw [mkPrimInfo_getD tris i hi, List.getD_eq_getElem _ _ hi, hti]
    have hmem := foldl_expandB_mem hq AABB.empty
    rw [hqv] at hmem
    dsimp only at hmem
    obtain ⟨hbmin, hbmax⟩ := hmem
    obtain ⟨hc0, hc1, hc2⟩ := triBounds_contains t
    rw [hroot]
    exact ⟨⟨vle_trans hbmin hc0.1, vle_trans hc0.2 hbmax⟩,
      ⟨vle_trans hbmin hc1.1, vle_trans hc1.2 hbmax⟩,
      ⟨vle_trans hbmin hc2.1, vle_trans hc2.2 hbmax⟩⟩

/-- Witness for C5 at a concrete one-triangle input. -/
theorem C5_root_contains_all_witness :
    (build builder0 [wTri 0]).nodes ≠ [] ∧
    ((build builder0 [wTri 0]).nodes.getD 0 BVHNode.placeholder).box.containsP
      (wTri 0).v0.xyz ∧
    ((build builder0 [wTri 0]).nodes.getD 0 BVHNode.placeholder).box.containsP
      (wTri 0).v1.xyz ∧
    ((build builder0 [wTri 0]).nodes.getD 0 BVHNode.placeholder).box.containsP
      (wTri 0).v2.xyz := by
  obtain ⟨h1, h2⟩ := C5_root_contains_all builder0 [wTri 0] (List.cons_ne_nil _ _)
  exact ⟨h1, h2 (wTri 0) (List.mem_cons_self ..)⟩

/-- **C6.**  In every hierarchy `build` produces — and again after any
`refit` of it against any triangle array — every internal node's box is
the exact componentwise min/max union of its two children's boxes. -/
theorem C6_internal_box_union (bld : BVHBuilder) (tris tris' : List Triangle)
    (j : Nat) :
    (j < (build bld tris).nodes.length → NodeOK (build bld tris).nodes j) ∧
    (j < (refit (build bld tris) tris').nodes.length →
      NodeOK (refit (build bld tris) tris').nodes j) := by
  by_cases h : tris = []
  · subst h
    have hb : (build bld []).nodes = [] := rfl
    have hr : refit (build bld []) tris' = build bld [] := by
      unfold refit
      rw [if_pos (by rw [hb]; rfl)]
    constructor
    · intro hj
      rw [hb] at hj
      simp at hj
    · intro hj
      rw [hr, hb] at hj
      simp at hj
  · rw [build_eq bld tris h]
    have sp := build_spec tris h
    set B := (buildRecursive ⟨[], []⟩ (mkPrimInfo tris) 0 (mkPrimInfo tris).length).1
      with hB
    have hne : ¬ B.nodes.isEmpty = true := by
      rw [List.isEmpty_iff]
      exact List.ne_nil_of_length_pos sp.grow
    have hrefit : refit B tris' =
        { B with nodes :=
            (refitNode B.nodes.length B.nodes B.primitiveIndices tris' 0).1 } := by
      unfold refit
      rw [if_neg hne]
    constructor
    · intro hj
      exact sp.ok j (Nat.zero_le _) hj
    · intro hj
      rw [hrefit] at hj ⊢
      dsimp only at hj ⊢
      obtain ⟨r1, r2, r3, r4, r5⟩ := refitNode_spec B.primitiveIndices tris'
        B.nodes.length B.nodes 0 B.nodes.length rfl sp.sub (le_refl _)
        B.nodes.length (by omega)
      rw [r1] at hj
      exact r5 j (Nat.zero_le _) hj

/-- Witness for C6 at a concrete input: the single-leaf hierarchy over
one triangle, before and after a refit against a moved triangle. -/
theorem C6_internal_box_union_witness :
    NodeOK (build builder0 [wTri 0]).nodes 0 ∧
    NodeOK (refit (build builder0 [wTri 0]) [wTri 1]).nodes 0 := by
  obtain ⟨h1, h2⟩ := C6_internal_box_union builder0 [wTri 0] [wTri 1] 0
  have hlen : 0 < (build builder0 [wTri 0]).nodes.length := by
    rw [build_eq builder0 [wTri 0] (List.cons_ne_nil _ _)]
    exact (build_spec [wTri 0] (List.cons_ne_nil _ _)).grow
  constructor
  · exact h1 hlen
  · refine h2 ?_
    rw [refit_nodes_length]
    exact hlen

/-- Two equal-structure record updates are equal nodes. -/
theorem nodeWrite_congr {a b : BVHNode} (h : sameButBox a b) (mn mx : Vec4) :
    ({ a with min := mn, max := mx } : BVHNode) =
      { b with min := mn, max := mx } := by
  obtain ⟨h1, h2, h3, h4⟩ := h
  cases a
  cases b
  dsimp only at h1 h2 h3 h4
  subst h1
  subst h2
  subst h3
  subst h4
  rfl

/-- `refitNode` is determined, on a subtree's range, by the structure
fields there (plus the primitive indices and triangles): running it on
two arrays that agree on everything but the boxes yields the same
returned box and the same entries over the range. -/
theorem refitNode_congr (prims : List Int) (tris : List Triangle) :
    ∀ (k : Nat) (n1 n2 n3 : List BVHNode) (idx hi : Nat), hi - idx = k →
      Subtree n1 idx hi → hi ≤ n1.length →
      n2.length = n1.length → n3.length = n1.length →
      (∀ j, idx ≤ j → j < hi →
        sameButBox (n2.getD j BVHNode.placeholder) (n1.getD j BVHNode.placeholder)) →
      (∀ j, idx ≤ j → j < hi →
        sameButBox (n3.getD j BVHNode.placeholder) (n1.getD j BVHNode.placeholder)) →
      ∀ fuel, hi - idx ≤ fuel →
      (refitNode fuel n2 prims tris idx).2 = (refitNode fuel n3 prims tris idx).2 ∧
      (∀ j, idx ≤ j → j < hi →
        (refitNode fuel n2 prims tris idx).1.getD j BVHNode.placeholder =
          (refitNode fuel n3 prims tris idx).1.getD j BVHNode.placeholder) := by
  intro k
  induction k using Nat.strong_induction_on with
  | _ k ih =>
    intro n1 n2 n3 idx hi hk hst hhi hl2 hl3 hag2 hag3 fuel hfuel
    have hlt : idx < hi := subtree_lt hst
    cases fuel with
    | zero => omega
    | succ f =>
      have hat2 := hag2 idx (le_refl _) (by omega)
      have hat3 := hag3 idx (le_refl _) (by omega)
      cases hst with
      | leaf i hidx hleft =>
        have hlc2 : (n2.getD idx BVHNode.placeholder).leftChild < 0 := by
          rw [hat2.1]
          exact hleft
        have hlc3 : (n3.getD idx BVHNode.placeholder).leftChild < 0 := by
          rw [hat3.1]
          exact hleft
        rw [refitNode, refitNode]
        dsimp only
        rw [if_pos hlc2, if_pos hlc3]
        have hsame : sameButBox (n2.getD idx BVHNode.placeholder)
            (n3.getD idx BVHNode.placeholder) :=
          sameButBox_trans hat2
            ⟨hat3.1.symm, hat3.2.1.symm, hat3.2.2.1.symm, hat3.2.2.2.symm⟩
        have hbeq :
            (List.range (n2.getD idx BVHNode.placeholder).rightChild.toNat).foldl
              (fun b i => b.expandB (getTriangleBounds (tris.getD
                ((prims.getD ((-(n2.getD idx BVHNode.placeholder).leftChild - 1).toNat + i) 0).toNat)
                Triangle.zero))) AABB.empty =
            (List.range (n3.getD idx BVHNode.placeholder).rightChild.toNat).foldl
              (fun b i => b.expandB (getTriangleBounds (tris.getD
                ((prims.getD ((-(n3.getD idx BVHNode.placeholder).leftChild - 1).toNat + i) 0).toNat)
                Triangle.zero))) AABB.empty := by
          rw [hsame.1, hsame.2.1]
        refine ⟨hbeq, ?_⟩
        intro j h1 h2
        have hj : j = idx := by omega
        subst hj
        rw [updateNodeBox_getD_self (by omega : j < n2.length),
          updateNodeBox_getD_self (by omega : j < n3.length), hbeq]
        exact nodeWrite_congr hsame _ _
      | node i m h2 hidx hleft hright hsl hsr =>
        have hm : m < hi := subtree_lt hsr
        have him : idx + 1 < m := subtree_lt hsl
        have hic2 : ¬ (n2.getD idx BVHNode.placeholder).leftChild < 0 := by
          rw [hat2.1, hleft]
          omega
        have hic3 : ¬ (n3.getD idx BVHNode.placeholder).leftChild < 0 := by
          rw [hat3.1, hleft]
          omega
        rw [refitNode, refitNode]
        dsimp only
        rw [if_neg hic2, if_neg hic3]
        rw [hat2.1, hat2.2.1, hat3.1, hat3.2.1, hleft, hright]
        simp only [Int.toNat_natCast]
        -- left halves agree
        obtain ⟨bL, aL⟩ := ih (m - (idx + 1)) (by omega) n1 n2 n3 (idx + 1) m rfl
          hsl (by omega) hl2 hl3
          (fun j a b => hag2 j (by omega) (by omega))
          (fun j a b => hag3 j (by omega) (by omega)) f (by omega)
        -- facts about the two left runs
        have hsl2 : Subtree n2 (idx + 1) m :=
          subtree_transfer_struct hsl (by omega)
            (fun j a b => hag2 j (by omega) (by omega))
        have hsl3 : Subtree n3 (idx + 1) m :=
          subtree_transfer_struct hsl (by omega)
            (fun j a b => hag3 j (by omega) (by omega))
        obtain ⟨L21, L22, L23, _, _⟩ := refitNode_spec prims tris (m - (idx + 1))
          n2 (idx + 1) m rfl hsl2 (by omega) f (by omega)
        obtain ⟨L31, L32, L33, _, _⟩ := refitNode_spec prims tris (m - (idx + 1))
          n3 (idx + 1) m rfl hsl3 (by omega) f (by omega)
        -- right halves agree, on the arrays left behind by the left runs
        obtain ⟨bR, aR⟩ := ih (hi - m) (by omega) n1
          (refitNode f n2 prims tris (idx + 1)).1
          (refitNode f n3 prims tris (idx + 1)).1 m hi rfl
          hsr hhi (by rw [L21]; exact hl2) (by rw [L31]; exact hl3)
          (fun j a b => by
            rw [L22 j (by omega)]
            exact hag2 j (by omega) b)
          (fun j a b => by
            rw [L32 j (by omega)]
            exact hag3 j (by omega) b) f (by omega)
        -- the right runs leave everything outside `[m, hi)` alone
        have hsrr2 : Subtree (refitNode f n2 prims tris (idx + 1)).1 m hi :=
          subtree_transfer_struct hsr (by rw [L21]; omega)
            (fun j a b => sameButBox_trans (L23 j) (hag2 j (by omega) b))
        have hsrr3 : Subtree (refitNode f n3 prims tris (idx + 1)).1 m hi :=
          subtree_transfer_struct hsr (by rw [L31]; omega)
            (fun j a b => sameButBox_trans (L33 j) (hag3 j (by omega) b))
        obtain ⟨R21, R22, _, _, _⟩ := refitNode_spec prims tris (hi - m)
          (refitNode f n2 prims tris (idx + 1)).1 m hi rfl hsrr2
          (by rw [L21]; omega) f (by omega)
        obtain ⟨R31, R32, _, _, _⟩ := refitNode_spec prims tris (hi - m)
          (refitNode f n3 prims tris (idx + 1)).1 m hi rfl hsrr3
          (by rw [L31]; omega) f (by omega)
        have hbox : (refitNode f n2 prims tris (idx + 1)).2.expandB
            (refitNode f (refitNode f n2 prims tris (idx + 1)).1 prims tris m).2 =
            (refitNode f n3 prims tris (idx + 1)).2.expandB
            (refitNode f (refitNode f n3 prims tris (idx + 1)).1 prims tris m).2 := by
          rw [bL, bR]
        have hn2idx : (refitNode f (refitNode f n2 prims tris (idx + 1)).1
            prims tris m).1.getD idx BVHNode.placeholder =
            n2.getD idx BVHNode.placeholder := by
          rw [R22 idx (by omega), L22 idx (by omega)]
        have hn3idx : (refitNode f (refitNode f n3 prims tris (idx + 1)).1
            prims tris m).1.getD idx BVHNode.placeholder =
            n3.getD idx BVHNode.placeholder := by
          rw [R32 idx (by omega), L32 idx (by omega)]
        have hlen2' : idx < (refitNode f (refitNode f n2 prims tris (idx + 1)).1
            prims tris m).1.length := by
          rw [R21, L21]
          omega
        have hlen3' : idx < (refitNode f (refitNode f n3 prims tris (idx + 1)).1
            prims tris m).1.length := by
          rw [R31, L31]
          omega
        refine ⟨hbox, ?_⟩
        intro j hj1 hj2
        by_cases hj : j = idx
        · subst hj
          rw [updateNodeBox_getD_self hlen2', updateNodeBox_getD_self hlen3',
            hn2idx, hn3idx, hbox]
          exact nodeWrite_congr
            (sameButBox_trans hat2
              ⟨hat3.1.symm, hat3.2.1.symm, hat3.2.2.1.symm, hat3.2.2.2.symm⟩) _ _
        · rcases Nat.lt_or_ge j m with hjm | hjm
          · rw [updateNodeBox_getD_ne (fun hh => hj hh.symm),
              updateNodeBox_getD_ne (fun hh => hj hh.symm),
              R22 j (by omega), R32 j (by omega)]
            exact aL j (by omega) hjm
          · rw [updateNodeBox_getD_ne (by omega), updateNodeBox_getD_ne (by omega)]
            exact aR j hjm hj2

/-- **C8.**  On a built hierarchy, `refit` is idempotent: a second refit
against the same (unchanged) triangle array reproduces every node —
its `min` and `max` included — exactly. -/
theorem C8_refit_idempotent (bld : BVHBuilder) (tris tris' : List Triangle) :
    refit (refit (build bld tris) tris') tris' = refit (build bld tris) tris' := by
  by_cases h : tris = []
  · have h0 : build bld tris = builder0 := by rw [h]; rfl
    have h1 : refit builder0 tris' = builder0 := by
      unfold refit
      rw [if_pos (show builder0.nodes.isEmpty = true from rfl)]
    rw [h0, h1, h1]
  · rw [build_eq bld tris h]
    have sp := build_spec tris h
    set B := (buildRecursive ⟨[], []⟩ (mkPrimInfo tris) 0 (mkPrimInfo tris).length).1
      with hB
    have hpos : 0 < B.nodes.length := sp.grow
    have hsub : Subtree B.nodes 0 B.nodes.length := sp.sub
    have hne : ¬ B.nodes.isEmpty = true := by
      rw [List.isEmpty_iff]
      exact List.ne_nil_of_length_pos hpos
    have hrefit : refit B tris' =
        { B with nodes :=
            (refitNode B.nodes.length B.nodes B.primitiveIndices tris' 0).1 } := by
      unfold refit
      rw [if_neg hne]
    set N1 := (refitNode B.nodes.length B.nodes B.primitiveIndices tris' 0).1
      with hN1
    obtain ⟨A1, A2, A3, A4, A5⟩ := refitNode_spec B.primitiveIndices tris'
      B.nodes.length B.nodes 0 B.nodes.length rfl hsub (le_refl _)
      B.nodes.length (by omega)
    have hN1len : N1.length = B.nodes.length := A1
    have hne2 : ¬ N1.isEmpty = true := by
      rw [List.isEmpty_iff]
      refine List.ne_nil_of_length_pos ?_
      rw [hN1len]
      exact hpos
    have hrefit2 : refit { B with nodes := N1 } tris' =
        { B with nodes :=
            (refitNode N1.length N1 B.primitiveIndices tris' 0).1 } := by
      unfold refit
      rw [if_neg hne2]
    rw [hrefit, hrefit2]
    obtain ⟨cb, ca⟩ := refitNode_congr B.primitiveIndices tris' B.nodes.length
      B.nodes N1 B.nodes 0 B.nodes.length rfl hsub (le_refl _) hN1len rfl
      (fun j a b => A3 j) (fun j a b => sameButBox_refl _)
      B.nodes.length (by omega)
    have hmain : (refitNode N1.length N1 B.primitiveIndices tris' 0).1 = N1 := by
      apply List.ext_getElem
      · rw [refitNode_length]
      · intro i hi1 hi2
        have hilen : i < B.nodes.length := by
          rw [refitNode_length] at hi1
          rw [← hN1len]
          exact hi1
        have hca := ca i (Nat.zero_le _) hilen
        rw [← List.getD_eq_getElem _ BVHNode.placeholder hi1,
          ← List.getD_eq_getElem _ BVHNode.placeholder hi2]
        rw [hN1len, hca, ← hN1]
    rw [hmain]

/-- With every centroid of the working subrange equal (and
float-representable), the per-dimension extremes coincide, so the
zero-span check `minCentroid == maxCentroid` skips the dimension
untouched. -/
theorem splitDim_const {s e : Nat} (bounds : AABB) (acc : SplitAcc) (d : Nat)
    (c : Vec3)
    (hne : subrange acc.prims s e ≠ [])
    (hc : ∀ p ∈ subrange acc.prims s e, p.centroid = c)
    (hbnd : ∀ p ∈ subrange acc.prims s e, CentroidBndP p) :
    splitDim s e bounds acc d = acc := by
  have hmm : minCentroidOf d (subrange acc.prims s e) =
      maxCentroidOf d (subrange acc.prims s e) := by
    obtain ⟨p, hp, hpe⟩ := minAttained d hne hbnd
    obtain ⟨q, hq, hqe⟩ := maxAttained d hne hbnd
    rw [← hpe, ← hqe, hc p hp, hc q hq]
  unfold splitDim
  dsimp only
  rw [if_pos hmm]

/-- With every centroid of the subrange equal, all three dimensions are
skipped and `findBestSplit` returns its initial state: sentinel cost,
`bestDim = 0`, the default midpoint position, and the array untouched. -/
theorem findBestSplit_const (prims : List PrimInfo) (s e : Nat) (bounds : AABB)
    (c : Vec3)
    (hne : subrange prims s e ≠ [])
    (hc : ∀ p ∈ subrange prims s e, p.centroid = c)
    (hbnd : ∀ p ∈ subrange prims s e, CentroidBndP p) :
    findBestSplit prims s e bounds =
      { bestCost := none, bestDim := 0, bestPos := (s + e) / 2, bestThr := 0,
        prims := prims } := by
  have step : ∀ (acc : SplitAcc) (d : Nat), acc.prims = prims →
      splitDim s e bounds acc d = acc := by
    intro acc d hp
    exact splitDim_const bounds acc d c (hp ▸ hne) (hp ▸ hc) (hp ▸ hbnd)
  set a0 : SplitAcc :=
    { bestCost := none, bestDim := 0, bestPos := (s + e) / 2, bestThr := 0,
      prims := prims } with ha0
  have hp0 : a0.prims = prims := rfl
  unfold findBestSplit
  simp only [List.foldl_cons, List.foldl_nil]
  rw [← ha0, step a0 0 hp0, step a0 1 hp0, step a0 2 hp0]

/-- Every descriptor of `mkPrimInfo tris` inherits a shared box center
`c` as its centroid, bounded componentwise by `FLT_MAX`. -/
theorem mkPrimInfo_const_centroid (tris : List Triangle) (c : Vec3)
    (hc : ∀ t ∈ tris, (getTriangleBounds t).center = c)
    (hb : (-fltMax ≤ c.x ∧ c.x ≤ fltMax) ∧ (-fltMax ≤ c.y ∧ c.y ≤ fltMax) ∧
      (-fltMax ≤ c.z ∧ c.z ≤ fltMax)) :
    ∀ p ∈ mkPrimInfo tris, p.centroid = c ∧ CentroidBndP p := by
  intro p hp
  rw [List.mem_iff_getElem] at hp
  obtain ⟨i, hi, hpe⟩ := hp
  have hi' : i < tris.length := by simpa [mkPrimInfo] using hi
  have hpe' : p =
      { bounds := getTriangleBounds (tris.getD i Triangle.zero),
        centroid := (getTriangleBounds (tris.getD i Triangle.zero)).center,
        primitiveIndex := (i : Int) } := by
    rw [← hpe, ← List.getD_eq_getElem _ PrimInfo.zero hi]
    exact mkPrimInfo_getD tris i hi'
  have htm : tris.getD i Triangle.zero ∈ tris := by
    rw [List.getD_eq_getElem _ _ hi']
    exact List.getElem_mem ..
  subst hpe'
  refine ⟨hc _ htm, ?_⟩
  unfold CentroidBndP
  dsimp only
  rw [hc _ htm]
  exact hb

/-- **C7.**  When all primitives share exactly the same centroid on all
three axes and the count exceeds the leaf threshold 4, `build` terminates
with a valid single-leaf hierarchy: every axis is skipped for zero
centroid span, so the best cost stays at its `FLT_MAX` sentinel, the
`cost >= count` check fires, and the sole node is a leaf (negative
`leftChild`, `rightChild` = primitive count) referencing every
primitive. -/
theorem C7_same_centroid_single_leaf (bld : BVHBuilder) (tris : List Triangle)
    (c : Vec3) (h4 : 4 < tris.length)
    (hc : ∀ t ∈ tris, (getTriangleBounds t).center = c)
    (hb : (-fltMax ≤ c.x ∧ c.x ≤ fltMax) ∧ (-fltMax ≤ c.y ∧ c.y ≤ fltMax) ∧
      (-fltMax ≤ c.z ∧ c.z ≤ fltMax)) :
    (findBestSplit (mkPrimInfo tris) 0 (mkPrimInfo tris).length
        (rangeBounds (mkPrimInfo tris) 0 (mkPrimInfo tris).length)).bestCost
      = none ∧
    (build bld tris).nodes.length = 1 ∧
    ((build bld tris).nodes.getD 0 BVHNode.placeholder).leftChild = -1 ∧
    ((build bld tris).nodes.getD 0 BVHNode.placeholder).rightChild =
      (tris.length : Int) ∧
    (build bld tris).primitiveIndices.length = tris.length := by
  have hne : tris ≠ [] := by
    intro h0
    rw [h0] at h4
    simp only [List.length_nil] at h4
    omega
  have hmem := mkPrimInfo_const_centroid tris c hc hb
  set P := mkPrimInfo tris with hP
  have hlen : P.length = tris.length := mkPrimInfo_length tris
  have hsub : subrange P 0 P.length = P := subrange_full P
  have hne' : subrange P 0 P.length ≠ [] := by
    rw [hsub]
    intro h0
    rw [h0] at hlen
    simp only [List.length_nil] at hlen
    omega
  have hcp : ∀ p ∈ subrange P 0 P.length, p.centroid = c := by
    rw [hsub]
    intro p hp
    exact (hmem p hp).1
  have hbp : ∀ p ∈ subrange P 0 P.length, CentroidBndP p := by
    rw [hsub]
    intro p hp
    exact (hmem p hp).2
  have hfb := findBestSplit_const P 0 P.length
    (rangeBounds P 0 P.length) c hne' hcp hbp
  have hres : buildRecursive ⟨[], []⟩ P 0 P.length =
      (createLeaf ⟨[BVHNode.placeholder], []⟩ 0 (rangeBounds P 0 P.length)
        P 0 P.length, P, 0) := by
    rw [buildRecursive]
    dsimp only
    rw [if_neg (by omega)]
    rw [hfb]
    dsimp only
    rw [if_pos (show costGE none (P.length - 0) = true from rfl)]
    simp only [List.nil_append, List.length_nil]
  have hbuild : build bld tris =
      createLeaf ⟨[BVHNode.placeholder], []⟩ 0 (rangeBounds P 0 P.length)
        P 0 P.length := by
    rw [build_eq bld tris hne, ← hP, hres]
  refine ⟨by rw [hfb], ?_, ?_, ?_, ?_⟩
  · rw [hbuild]
    unfold createLeaf
    dsimp only
    simp only [List.length_set, List.length_cons, List.length_nil]
  · rw [hbuild]
    unfold createLeaf
    dsimp only
    rw [getD_set_self (by simp only [List.length_cons, List.length_nil]; omega)]
    simp only [List.length_nil]
    norm_num
  · rw [hbuild]
    unfold createLeaf
    dsimp only
    rw [getD_set_self (by simp only [List.length_cons, List.length_nil]; omega)]
    rw [Nat.sub_zero, hlen]
  · rw [hbuild]
    unfold createLeaf
    dsimp only
    rw [hsub]
    simp only [List.nil_append, List.length_map]
    exact hlen

/-- C7 at a concrete degenerate input: 100 copies of one triangle,
every centroid `(1/2, 1/2, 0)`. -/
theorem C7_same_centroid_single_leaf_witness :
    (build builder0 (List.replicate 100 (wTri 0))).nodes.length = 1 ∧
    ((build builder0 (List.replicate 100 (wTri 0))).nodes.getD 0
        BVHNode.placeholder).leftChild = -1 ∧
    ((build builder0 (List.replicate 100 (wTri 0))).nodes.getD 0
        BVHNode.placeholder).rightChild = (100 : Int) ∧
    (build builder0 (List.replicate 100 (wTri 0))).primitiveIndices.length
      = 100 := by
  obtain ⟨h1, h2, h3, h4, h5⟩ :=
    C7_same_centroid_single_leaf builder0 (List.replicate 100 (wTri 0))
      ⟨1/2, 1/2, 0⟩
      (by simp only [List.length_replicate]; omega)
      (by
        intro t ht
        rw [List.eq_of_mem_replicate ht]
        norm_num [getTriangleBounds, wTri, AABB.empty, AABB.expandP,
          AABB.center, vmin, vmax, Vec4.xyz, fltMax, Vec3.mk.injEq])
      (by norm_num [fltMax])
  refine ⟨h2, h3, ?_, ?_⟩
  · rw [h4]
    simp only [List.length_replicate]
    norm_num
  · rw [h5]
    simp only [List.length_replicate]
